import Mathlib

/-!
Verification of the RP2350 hacking-challenge-2 AES decryption core.

The repository ships the hardened AES-256-CTR decryption (`decrypt` in
aes.S, exercised from rp2350_hacking_challenge_2.c), a report describing
the algorithm and its masking countermeasures (aes_report_monospace.md),
and an emulation stub for the RCP fault-injection macros (rcp.h).
The assembly implementation itself is not part of this source snapshot,
so the decryption pipeline below is modelled from the specification
(spec.md) and the report: AES-256 in CTR mode, key held as a 4-way
share, state held as shares A/B plus a partial byte share C, a masked
SBox through randomized lookup tables, a per-round byte permutation,
and a swap-or-not block-order permutation with cycle walking.

All machine integers are modelled as `Nat` with explicit reduction
modulo 256 where the code works on bytes.
-/

set_option maxRecDepth 100000

/-! ## Generic list and xor helpers -/

/-- Byte access used throughout: index into a byte list, 0 beyond the end. -/
def byteAt (x : List Nat) (i : Nat) : Nat := x.getD i 0

theorem byteAt_rangeMap (n : Nat) (f : Nat → Nat) (i : Nat) (h : i < n) :
    byteAt ((List.range n).map f) i = f i := by
  unfold byteAt
  rw [List.getD_eq_getElem _ _ (by simpa using h)]
  simp

theorem byteAt_rangeMap_ge (n : Nat) (f : Nat → Nat) (i : Nat) (h : n ≤ i) :
    byteAt ((List.range n).map f) i = 0 := by
  unfold byteAt
  rw [List.getD_eq_default]
  simpa using h

theorem xor_cancel_left (a b : Nat) : a ^^^ (a ^^^ b) = b := by
  rw [← Nat.xor_assoc, Nat.xor_self, Nat.zero_xor]

theorem xor_left_comm (a b c : Nat) : a ^^^ (b ^^^ c) = b ^^^ (a ^^^ c) := by
  rw [← Nat.xor_assoc, Nat.xor_comm a b, Nat.xor_assoc]

theorem rangeMap_congr {n : Nat} {f g : Nat → Nat} (h : ∀ i < n, f i = g i) :
    (List.range n).map f = (List.range n).map g := by
  apply List.map_congr_left
  intro i hi
  exact h i (List.mem_range.mp hi)

theorem eq_rangeMap_byteAt {x : List Nat} {n : Nat} (h : x.length = n) :
    (List.range n).map (fun i => byteAt x i) = x := by
  apply List.ext_getElem
  · simp [h]
  · intro i h1 h2
    simp only [List.getElem_map, List.getElem_range]
    unfold byteAt
    rw [List.getD_eq_getElem _ _ h2]

/-! ## AES bytes: SBox table and GF(2^8) doubling -/

/-- The AES SBox lookup table (FIPS-197). -/
def sboxTable : List Nat :=
  [0x63, 0x7c, 0x77, 0x7b, 0xf2, 0x6b, 0x6f, 0xc5, 0x30, 0x01, 0x67, 0x2b, 0xfe, 0xd7, 0xab, 0x76,
   0xca, 0x82, 0xc9, 0x7d, 0xfa, 0x59, 0x47, 0xf0, 0xad, 0xd4, 0xa2, 0xaf, 0x9c, 0xa4, 0x72, 0xc0,
   0xb7, 0xfd, 0x93, 0x26, 0x36, 0x3f, 0xf7, 0xcc, 0x34, 0xa5, 0xe5, 0xf1, 0x71, 0xd8, 0x31, 0x15,
   0x04, 0xc7, 0x23, 0xc3, 0x18, 0x96, 0x05, 0x9a, 0x07, 0x12, 0x80, 0xe2, 0xeb, 0x27, 0xb2, 0x75,
   0x09, 0x83, 0x2c, 0x1a, 0x1b, 0x6e, 0x5a, 0xa0, 0x52, 0x3b, 0xd6, 0xb3, 0x29, 0xe3, 0x2f, 0x84,
   0x53, 0xd1, 0x00, 0xed, 0x20, 0xfc, 0xb1, 0x5b, 0x6a, 0xcb, 0xbe, 0x39, 0x4a, 0x4c, 0x58, 0xcf,
   0xd0, 0xef, 0xaa, 0xfb, 0x43, 0x4d, 0x33, 0x85, 0x45, 0xf9, 0x02, 0x7f, 0x50, 0x3c, 0x9f, 0xa8,
   0x51, 0xa3, 0x40, 0x8f, 0x92, 0x9d, 0x38, 0xf5, 0xbc, 0xb6, 0xda, 0x21, 0x10, 0xff, 0xf3, 0xd2,
   0xcd, 0x0c, 0x13, 0xec, 0x5f, 0x97, 0x44, 0x17, 0xc4, 0xa7, 0x7e, 0x3d, 0x64, 0x5d, 0x19, 0x73,
   0x60, 0x81, 0x4f, 0xdc, 0x22, 0x2a, 0x90, 0x88, 0x46, 0xee, 0xb8, 0x14, 0xde, 0x5e, 0x0b, 0xdb,
   0xe0, 0x32, 0x3a, 0x0a, 0x49, 0x06, 0x24, 0x5c, 0xc2, 0xd3, 0xac, 0x62, 0x91, 0x95, 0xe4, 0x79,
   0xe7, 0xc8, 0x37, 0x6d, 0x8d, 0xd5, 0x4e, 0xa9, 0x6c, 0x56, 0xf4, 0xea, 0x65, 0x7a, 0xae, 0x08,
   0xba, 0x78, 0x25, 0x2e, 0x1c, 0xa6, 0xb4, 0xc6, 0xe8, 0xdd, 0x74, 0x1f, 0x4b, 0xbd, 0x8b, 0x8a,
   0x70, 0x3e, 0xb5, 0x66, 0x48, 0x03, 0xf6, 0x0e, 0x61, 0x35, 0x57, 0xb9, 0x86, 0xc1, 0x1d, 0x9e,
   0xe1, 0xf8, 0x98, 0x11, 0x69, 0xd9, 0x8e, 0x94, 0x9b, 0x1e, 0x87, 0xe9, 0xce, 0x55, 0x28, 0xdf,
   0x8c, 0xa1, 0x89, 0x0d, 0xbf, 0xe6, 0x42, 0x68, 0x41, 0x99, 0x2d, 0x0f, 0xb0, 0x54, 0xbb, 0x16]

/-- AES byte substitution. Defined on every `Nat` by reducing mod 256 first. -/
def sbox (x : Nat) : Nat := sboxTable.getD (x % 256) 0

/-- Doubling in GF(2^8), kept in byte range. -/
def xtime (x : Nat) : Nat := ((2 * x) ^^^ (if x.testBit 7 then 27 else 0)) % 256

/-- Multiplication by 3 in GF(2^8). -/
def mul3 (x : Nat) : Nat := xtime x ^^^ x

theorem two_mul_xor_distrib (a b : Nat) : 2 * (a ^^^ b) = 2 * a ^^^ 2 * b := by
  have h : ∀ x : Nat, 2 * x = x <<< 1 := by
    intro x
    rw [Nat.shiftLeft_eq]
    ring
  rw [h, h, h]
  apply Nat.eq_of_testBit_eq
  intro i
  simp only [Nat.testBit_shiftLeft, Nat.testBit_xor]
  by_cases hi : 1 ≤ i <;> simp [hi]

theorem mod_two_pow_xor (a b n : Nat) : (a ^^^ b) % 2 ^ n = a % 2 ^ n ^^^ b % 2 ^ n := by
  apply Nat.eq_of_testBit_eq
  intro i
  simp only [Nat.testBit_mod_two_pow, Nat.testBit_xor]
  by_cases h : i < n <;> simp [h]

/-- GF(2^8) doubling is additive: the masked and unmasked pipelines may
distribute MIXCOLUMNS over the shares. -/
theorem xtime_xor (a b : Nat) : xtime (a ^^^ b) = xtime a ^^^ xtime b := by
  unfold xtime
  rw [show (256 : Nat) = 2 ^ 8 from rfl, ← mod_two_pow_xor]
  congr 1
  rw [two_mul_xor_distrib, Nat.testBit_xor]
  rcases ha : a.testBit 7 <;> rcases hb : b.testBit 7 <;>
    simp [Nat.xor_assoc, Nat.xor_comm, xor_left_comm, xor_cancel_left]

theorem mul3_xor (a b : Nat) : mul3 (a ^^^ b) = mul3 a ^^^ mul3 b := by
  unfold mul3
  rw [xtime_xor]
  simp [Nat.xor_assoc, Nat.xor_comm, xor_left_comm]

/-! ## AES-256 block cipher (the plain, unmasked specification) -/

/-- Column-major state layout: byte `i` sits at row `i % 4` of column `i / 4`.
SHIFTROWS sends the byte at `shiftIdx i` to position `i`. -/
def shiftIdx (i : Nat) : Nat := 4 * ((i / 4 + i % 4) % 4) + i % 4

theorem shiftIdx_lt (i : Nat) : shiftIdx i < 16 := by
  unfold shiftIdx
  omega

def addRK (rk s : List Nat) : List Nat :=
  (List.range 16).map (fun i => byteAt s i ^^^ byteAt rk i)

def subBytes (s : List Nat) : List Nat :=
  (List.range 16).map (fun i => sbox (byteAt s i))

def shiftRows (s : List Nat) : List Nat :=
  (List.range 16).map (fun i => byteAt s (shiftIdx i))

/-- One output byte of MIXCOLUMNS: the circulant (2,3,1,1) row acting on the
column that byte `i` belongs to. -/
def mixByte (s : List Nat) (i : Nat) : Nat :=
  (xtime (byteAt s (4 * (i / 4) + (i % 4 + 0) % 4)) ^^^
   mul3 (byteAt s (4 * (i / 4) + (i % 4 + 1) % 4))) ^^^
  (byteAt s (4 * (i / 4) + (i % 4 + 2) % 4) ^^^
   byteAt s (4 * (i / 4) + (i % 4 + 3) % 4))

def mixColumns (s : List Nat) : List Nat :=
  (List.range 16).map (mixByte s)

/-! AES-256 key expansion: 60 words of 4 bytes each (FIPS-197, Nk = 8). -/

def wxor (x y : List Nat) : List Nat :=
  (List.range 4).map (fun i => byteAt x i ^^^ byteAt y i)

def subWord (w : List Nat) : List Nat :=
  (List.range 4).map (fun i => sbox (byteAt w i))

def rotWord (w : List Nat) : List Nat :=
  (List.range 4).map (fun i => byteAt w ((i + 1) % 4))

def rconWord (k : Nat) : List Nat :=
  [[1, 0, 0, 0], [2, 0, 0, 0], [4, 0, 0, 0], [8, 0, 0, 0], [16, 0, 0, 0],
   [32, 0, 0, 0], [64, 0, 0, 0]].getD (k - 1) [0, 0, 0, 0]

/-- The nonlinear/linear recurrence producing key-schedule word `n` from the
words before it. -/
def nextWord (ws : List (List Nat)) (n : Nat) : List Nat :=
  let prev := ws.getD (n - 1) []
  let temp := if n % 8 = 0 then wxor (subWord (rotWord prev)) (rconWord (n / 8))
              else if n % 8 = 4 then subWord prev
              else prev
  wxor (ws.getD (n - 8) []) temp

/-- First `n` words of the AES-256 key schedule of a 32-byte key. -/
def keyWordsN (key : List Nat) : Nat → List (List Nat)
  | 0 => []
  | n + 1 =>
    let ws := keyWordsN key n
    if n < 8 then ws ++ [(List.range 4).map (fun b => byteAt key (4 * n + b))]
    else ws ++ [nextWord ws n]

/-- Round key `r` (16 bytes) of a 32-byte AES-256 key. -/
def roundKeyOf (key : List Nat) (r : Nat) : List Nat :=
  (List.range 16).map (fun i => byteAt ((keyWordsN key 60).getD (4 * r + i / 4) []) (i % 4))

/-- AES-256 block encryption, phrased as in the report: for each of the 14
rounds do ADDROUNDKEY, SBOX, SHIFTROWS and (for the first 13) MIXCOLUMNS,
then a final ADDROUNDKEY with round key 14. -/
def aesRound (key : List Nat) (s : List Nat) (r : Nat) : List Nat :=
  let t := shiftRows (subBytes (addRK (roundKeyOf key r) s))
  if r ≤ 12 then mixColumns t else t

def aes256Encrypt (key block : List Nat) : List Nat :=
  addRK (roundKeyOf key 14) ((List.range 14).foldl (aesRound key) block)

/-! ## CTR mode -/

def bytesToN (x : List Nat) : Nat := x.foldl (fun acc b => 256 * acc + b) 0

/-- 16-byte big-endian encoding of a counter value. -/
def nToBytes16 (v : Nat) : List Nat :=
  (List.range 16).map (fun i => v / 256 ^ (15 - i) % 256)

/-- The IV for block `b` in CTR mode: `IV0 + b` as a 128-bit big-endian value. -/
def ctrBlock (iv : List Nat) (b : Nat) : List Nat :=
  nToBytes16 ((bytesToN iv + b) % 2 ^ 128)

/-- XOR of a keystream block into a (ciphertext or plaintext) block. -/
def xor16 (ks blk : List Nat) : List Nat :=
  (List.range 16).map (fun i => byteAt ks i ^^^ byteAt blk i)

/-- AES-256-CTR applied blockwise: block `i` is XORed with
`AES-256-encrypt(IV0 + i)`.  Encryption and decryption are the same map. -/
def ctrXor (key iv : List Nat) (blocks : List (List Nat)) : List (List Nat) :=
  (List.range blocks.length).map (fun i =>
    xor16 (aes256Encrypt key (ctrBlock iv i)) (blocks.getD i []))

/-! ## Independent reference AES-256-CTR

A second implementation, written from FIPS-197 rather than from the report:
the SBox is computed from GF(2^8) inversion and the affine map instead of a
table, the round loop follows the NIST ordering (initial ADDROUNDKEY, then
rounds of SubBytes/ShiftRows/MixColumns/AddRoundKey), and CTR walks the block
list recursively. -/

def gmulAux : Nat → Nat → Nat → Nat → Nat
  | 0, _, _, p => p
  | n + 1, a, b, p =>
    gmulAux n (xtime a) (b / 2) (if b % 2 = 1 then p ^^^ a else p)

/-- Multiplication in GF(2^8). -/
def gmul (a b : Nat) : Nat := gmulAux 8 a b 0

/-- Inverse in GF(2^8) via x^254 (0 maps to 0). -/
def gfInv (x : Nat) : Nat :=
  let x2 := gmul x x
  let x4 := gmul x2 x2
  let x8 := gmul x4 x4
  let x16 := gmul x8 x8
  let x32 := gmul x16 x16
  let x64 := gmul x32 x32
  let x128 := gmul x64 x64
  gmul x128 (gmul x64 (gmul x32 (gmul x16 (gmul x8 (gmul x4 x2)))))

def rotl8 (y k : Nat) : Nat := (y * 2 ^ k) % 256 ||| y / 2 ^ (8 - k)

/-- The SBox computed from first principles: inversion followed by the
affine transformation. -/
def refSbox (x : Nat) : Nat :=
  let y := gfInv (x % 256)
  ((((y ^^^ rotl8 y 1) ^^^ rotl8 y 2) ^^^ rotl8 y 3) ^^^ rotl8 y 4) ^^^ 0x63

theorem refSbox_eq_sbox (x : Nat) : refSbox x = sbox x := by
  have hx : x % 256 < 256 := Nat.mod_lt _ (by norm_num)
  have hall : ∀ y < 256, refSbox y = sbox y := by decide
  have h1 : refSbox (x % 256) = sbox (x % 256) := hall _ hx
  have h2 : refSbox (x % 256) = refSbox x := by
    unfold refSbox
    rw [Nat.mod_mod_of_dvd _ (by norm_num)]
  have h3 : sbox (x % 256) = sbox x := by
    unfold sbox
    rw [Nat.mod_mod_of_dvd _ (by norm_num)]
  rw [← h2, h1, h3]

def refSubWord (w : List Nat) : List Nat :=
  (List.range 4).map (fun i => refSbox (byteAt w i))

def refNextWord (ws : List (List Nat)) (n : Nat) : List Nat :=
  let prev := ws.getD (n - 1) []
  let temp := if n % 8 = 0 then wxor (refSubWord (rotWord prev)) (rconWord (n / 8))
              else if n % 8 = 4 then refSubWord prev
              else prev
  wxor (ws.getD (n - 8) []) temp

def refKeyWordsN (key : List Nat) : Nat → List (List Nat)
  | 0 => []
  | n + 1 =>
    let ws := refKeyWordsN key n
    if n < 8 then ws ++ [(List.range 4).map (fun b => byteAt key (4 * n + b))]
    else ws ++ [refNextWord ws n]

def refRoundKeyOf (key : List Nat) (r : Nat) : List Nat :=
  (List.range 16).map (fun i => byteAt ((refKeyWordsN key 60).getD (4 * r + i / 4) []) (i % 4))

def refSubBytes (s : List Nat) : List Nat :=
  (List.range 16).map (fun i => refSbox (byteAt s i))

/-- FIPS-197 round ordering: 13 middle rounds, each
SubBytes/ShiftRows/MixColumns/AddRoundKey. -/
def refMiddleRound (key : List Nat) (s : List Nat) (r : Nat) : List Nat :=
  addRK (refRoundKeyOf key r) (mixColumns (shiftRows (refSubBytes s)))

def refAes256Encrypt (key block : List Nat) : List Nat :=
  let s0 := addRK (refRoundKeyOf key 0) block
  let s13 := (List.range 13).foldl (fun s j => refMiddleRound key s (j + 1)) s0
  addRK (refRoundKeyOf key 14) (shiftRows (refSubBytes s13))

def refCtrAux (key iv : List Nat) : Nat → List (List Nat) → List (List Nat)
  | _, [] => []
  | i, blk :: rest =>
    xor16 (refAes256Encrypt key (ctrBlock iv i)) blk :: refCtrAux key iv (i + 1) rest

/-- The independent reference AES-256-CTR transform (encryption and
decryption are the same map). -/
def refCtrEncrypt (key iv : List Nat) (blocks : List (List Nat)) : List (List Nat) :=
  refCtrAux key iv 0 blocks

theorem refSubWord_eq (w : List Nat) : refSubWord w = subWord w := by
  unfold refSubWord subWord
  apply rangeMap_congr
  intro i _
  rw [refSbox_eq_sbox]

theorem refNextWord_eq (ws : List (List Nat)) (n : Nat) : refNextWord ws n = nextWord ws n := by
  unfold refNextWord nextWord
  simp only [refSubWord_eq]

theorem refKeyWordsN_eq (key : List Nat) (n : Nat) : refKeyWordsN key n = keyWordsN key n := by
  induction n with
  | zero => rfl
  | succ m ih =>
    unfold refKeyWordsN keyWordsN
    simp only [ih, refNextWord_eq]

theorem refRoundKeyOf_eq (key : List Nat) (r : Nat) : refRoundKeyOf key r = roundKeyOf key r := by
  unfold refRoundKeyOf roundKeyOf
  rw [refKeyWordsN_eq]

theorem refSubBytes_eq (s : List Nat) : refSubBytes s = subBytes s := by
  unfold refSubBytes subBytes
  apply rangeMap_congr
  intro i _
  rw [refSbox_eq_sbox]

theorem refAes256Encrypt_eq (key block : List Nat) :
    refAes256Encrypt key block = aes256Encrypt key block := by
  unfold refAes256Encrypt aes256Encrypt
  simp only [refMiddleRound, refSubBytes_eq, refRoundKeyOf_eq]
  rw [show List.range 13 = [0, 1, 2, 3, 4, 5, 6, 7, 8, 9, 10, 11, 12] from rfl,
      show List.range 14 = [0, 1, 2, 3, 4, 5, 6, 7, 8, 9, 10, 11, 12, 13] from rfl]
  simp only [List.foldl_cons, List.foldl_nil, aesRound]
  norm_num

theorem refCtrAux_eq (key iv : List Nat) (i : Nat) (blocks : List (List Nat)) :
    refCtrAux key iv i blocks =
      (List.range blocks.length).map (fun p =>
        xor16 (aes256Encrypt key (ctrBlock iv (i + p))) (blocks.getD p [])) := by
  induction blocks generalizing i with
  | nil => rfl
  | cons blk rest ih =>
    show xor16 (refAes256Encrypt key (ctrBlock iv i)) blk :: refCtrAux key iv (i + 1) rest = _
    rw [ih (i + 1), refAes256Encrypt_eq, List.length_cons, List.range_succ_eq_map,
        List.map_cons, List.map_map, List.cons_eq_cons]
    refine ⟨by norm_num, ?_⟩
    apply List.map_congr_left
    intro p _
    have hh : i + 1 + p = i + Nat.succ p := by omega
    simp only [Function.comp, List.getD_cons_succ, hh]

theorem refCtrEncrypt_eq (key iv : List Nat) (blocks : List (List Nat)) :
    refCtrEncrypt key iv blocks = ctrXor key iv blocks := by
  unfold refCtrEncrypt ctrXor
  rw [refCtrAux_eq]
  apply List.map_congr_left
  intro p _
  norm_num

/-! ## 4-way key share

The OTP key material is 128 bytes holding a 4-way share of the 256-bit key.
The layout is word-interleaved: for each 32-bit word `j` of the true key, the
four share words sit consecutively at bytes `16*j .. 16*j+15`, and their XOR
is key word `j`.  This layout is fixed by the data in the repository: both
keytool.py example encodings of the all-zero key in the README and the
default key built into rp2350_hacking_challenge_2.c decode to the zero key
under it (and under no contiguous-quarter layout).  -/

/-- True 256-bit key encoded by 128 bytes of 4-way-share key material. -/
def reconstruct4 (k4 : List Nat) : List Nat :=
  (List.range 32).map (fun t =>
    ((byteAt k4 (16 * (t / 4) + t % 4) ^^^ byteAt k4 (16 * (t / 4) + 4 + t % 4)) ^^^
      byteAt k4 (16 * (t / 4) + 8 + t % 4)) ^^^ byteAt k4 (16 * (t / 4) + 12 + t % 4))

/-- Offline key split (keytool.py): three random 32-byte shares, the fourth
set to their XOR with the true key, interleaved per 32-bit word. -/
def share4 (key r1 r2 r3 : List Nat) : List Nat :=
  (List.range 128).map (fun p =>
    let t := 4 * (p / 16) + p % 4
    if p % 16 / 4 = 0 then byteAt r1 t
    else if p % 16 / 4 = 1 then byteAt r2 t
    else if p % 16 / 4 = 2 then byteAt r3 t
    else ((byteAt key t ^^^ byteAt r1 t) ^^^ byteAt r2 t) ^^^ byteAt r3 t)

/-- Reading of the spec's words "four 32-byte components concatenated in a
fixed order whose XOR equals the true 256-bit key": XOR of the four
contiguous 32-byte quarters of the key material. -/
def reconstruct4Concat (k4 : List Nat) : List Nat :=
  (List.range 32).map (fun t =>
    ((byteAt k4 t ^^^ byteAt k4 (32 + t)) ^^^ byteAt k4 (64 + t)) ^^^ byteAt k4 (96 + t))

/-- The keytool.py encoding of the all-zero 256-bit key shown in the README. -/
def keytoolZeroEnc : List Nat :=
  [0x66, 0xb3, 0xca, 0x75, 0xe0, 0x2a, 0xd9, 0xc8, 0xab, 0xb0, 0x6c, 0x0b, 0x2d, 0x29, 0x7f, 0xb6,
   0x60, 0xed, 0x5c, 0x58, 0xc9, 0x02, 0x9e, 0xc8, 0x83, 0xf9, 0xdb, 0xcd, 0x2a, 0x16, 0x19, 0x5d,
   0x5e, 0x75, 0xfa, 0xdf, 0xd3, 0x2a, 0xcb, 0x29, 0x7c, 0xa0, 0x39, 0x30, 0xf1, 0xff, 0x08, 0xc6,
   0x71, 0x4d, 0x3f, 0x79, 0xeb, 0x3a, 0x26, 0xcd, 0xc9, 0xef, 0x28, 0xf5, 0x53, 0x98, 0x31, 0x41,
   0x8a, 0xe5, 0x50, 0x43, 0xc5, 0xa2, 0x25, 0xf8, 0x4e, 0xe3, 0xb5, 0x8e, 0x01, 0xa4, 0xc0, 0x35,
   0xca, 0xe6, 0x2e, 0xba, 0x5e, 0x62, 0x24, 0x90, 0xce, 0x27, 0x73, 0x6a, 0x5a, 0xa3, 0x79, 0x40,
   0x53, 0xfe, 0x72, 0x85, 0xc5, 0x13, 0x07, 0x21, 0x24, 0xac, 0x2f, 0x7b, 0xb2, 0x41, 0x5a, 0xdf,
   0x1c, 0x4b, 0xf2, 0xd8, 0x7c, 0x7b, 0x9c, 0x6d, 0x36, 0x43, 0xe4, 0x33, 0x56, 0x73, 0x8a, 0x86]

/-- The default 4-way key material built into rp2350_hacking_challenge_2.c
("Default key will decode to 00000..."). -/
def defaultKey4 : List Nat :=
  [0x6c, 0x31, 0x10, 0x89, 0x36, 0x54, 0x06, 0x49, 0xb8, 0x3b, 0xc5, 0x4b, 0xe2, 0x5e, 0xd3, 0x8b,
   0x7a, 0xc9, 0x40, 0x76, 0xa9, 0x83, 0xac, 0x10, 0x70, 0xf3, 0x77, 0xe8, 0xa3, 0xb9, 0x9b, 0x8e,
   0x81, 0x4f, 0xe5, 0xf5, 0x80, 0x8d, 0x1c, 0xa7, 0x0e, 0xbd, 0xf7, 0x0d, 0x0f, 0x7f, 0x0e, 0x5f,
   0xaa, 0x0b, 0xee, 0xc6, 0x93, 0xf7, 0x79, 0xfc, 0x52, 0x5f, 0x6d, 0xb8, 0x6b, 0xa3, 0xfa, 0x82,
   0x5b, 0xf0, 0xef, 0x65, 0xfd, 0x70, 0xb2, 0x31, 0x87, 0x6b, 0x54, 0x85, 0x21, 0xeb, 0x09, 0xd1,
   0x17, 0x5c, 0xfd, 0x1c, 0x35, 0x6d, 0x44, 0x60, 0x71, 0xd1, 0xcc, 0xbf, 0x53, 0xe0, 0x75, 0xc3,
   0x8b, 0x1f, 0xd4, 0xbf, 0x4b, 0x99, 0x45, 0xc7, 0x01, 0x3a, 0x2f, 0x06, 0xc1, 0xbc, 0xbe, 0x7e,
   0xc4, 0xf3, 0xcc, 0x93, 0x42, 0x6a, 0xdf, 0x21, 0x3a, 0xb2, 0xf8, 0x92, 0xbc, 0x2b, 0xeb, 0x20]

theorem share4_length (key r1 r2 r3 : List Nat) : (share4 key r1 r2 r3).length = 128 := by
  unfold share4
  simp

theorem reconstruct4_share4 (key r1 r2 r3 : List Nat) :
    reconstruct4 (share4 key r1 r2 r3) = (List.range 32).map (fun t => byteAt key t) := by
  unfold reconstruct4
  apply rangeMap_congr
  intro t ht
  have h0 : 16 * (t / 4) + t % 4 < 128 := by omega
  have h1 : 16 * (t / 4) + 4 + t % 4 < 128 := by omega
  have h2 : 16 * (t / 4) + 8 + t % 4 < 128 := by omega
  have h3 : 16 * (t / 4) + 12 + t % 4 < 128 := by omega
  unfold share4
  rw [byteAt_rangeMap _ _ _ h0, byteAt_rangeMap _ _ _ h1, byteAt_rangeMap _ _ _ h2,
      byteAt_rangeMap _ _ _ h3]
  have e0 : (16 * (t / 4) + t % 4) % 16 / 4 = 0 := by omega
  have e1 : (16 * (t / 4) + 4 + t % 4) % 16 / 4 = 1 := by omega
  have e2 : (16 * (t / 4) + 8 + t % 4) % 16 / 4 = 2 := by omega
  have e3 : (16 * (t / 4) + 12 + t % 4) % 16 / 4 = 3 := by omega
  have f0 : 4 * ((16 * (t / 4) + t % 4) / 16) + (16 * (t / 4) + t % 4) % 4 = t := by omega
  have f1 : 4 * ((16 * (t / 4) + 4 + t % 4) / 16) + (16 * (t / 4) + 4 + t % 4) % 4 = t := by omega
  have f2 : 4 * ((16 * (t / 4) + 8 + t % 4) / 16) + (16 * (t / 4) + 8 + t % 4) % 4 = t := by omega
  have f3 : 4 * ((16 * (t / 4) + 12 + t % 4) / 16) + (16 * (t / 4) + 12 + t % 4) % 4 = t := by omega
  simp only [e0, e1, e2, e3, f0, f1, f2, f3]
  norm_num
  simp [Nat.xor_assoc, Nat.xor_comm, xor_left_comm, xor_cancel_left]

/-! ## BlockScheduler: oblivious swap-or-not permutation

Modelled from the spec: aes.S (which implements CT_BPERM) is not part of the
source snapshot.  Per spec section 4.3 and the report, the permutation over
`[0, nblk)` is a swap-or-not network over the smallest covering power-of-two
range: each round draws a random round key `k`, pairs index `i` with the
reflection `(k - i) mod m`, discards the candidate by cycle-walking when it
falls outside `[0, nblk)`, and otherwise swaps according to one bit of a
well-mixing hash of the round index, round key and the candidate pair. The
hash and the per-call list of round keys are parameters supplied by
RandomSource. -/

def pow2geAux (n : Nat) : Nat → Nat → Nat
  | 0, acc => acc
  | fuel + 1, acc => if n ≤ acc then acc else pow2geAux n fuel (2 * acc)

/-- Smallest covering power-of-two range used by the reflection rule
(adequate for every `nblk` up to 2^16). -/
def coverPow2 (n : Nat) : Nat := pow2geAux n 16 1

theorem pow2geAux_pos (n : Nat) : ∀ fuel acc, 0 < acc → 0 < pow2geAux n fuel acc := by
  intro fuel
  induction fuel with
  | zero => intro acc h; exact h
  | succ f ih =>
    intro acc h
    unfold pow2geAux
    by_cases hle : n ≤ acc
    · simpa [hle]
    · simpa [hle] using ih (2 * acc) (by omega)

theorem pow2geAux_ge (n : Nat) :
    ∀ fuel acc, n ≤ acc * 2 ^ fuel → n ≤ pow2geAux n fuel acc := by
  intro fuel
  induction fuel with
  | zero => intro acc h; simpa using h
  | succ f ih =>
    intro acc h
    unfold pow2geAux
    by_cases hle : n ≤ acc
    · simp [hle]
    · have h2 : n ≤ 2 * acc * 2 ^ f := by
        rw [pow_succ] at h
        calc n ≤ acc * (2 ^ f * 2) := h
        _ = 2 * acc * 2 ^ f := by ring
      simpa [hle] using ih (2 * acc) h2

theorem coverPow2_pos (n : Nat) : 0 < coverPow2 n := pow2geAux_pos n 16 1 (by norm_num)

theorem coverPow2_ge {n : Nat} (h : n ≤ 65536) : n ≤ coverPow2 n := by
  apply pow2geAux_ge
  simpa using h

/-- One swap-or-not round: reflect `i` to its candidate partner, cycle-walk
(stay put) if the partner is outside `[0, nblk)`, otherwise swap or not
according to one hash bit of the (order-independent) pair. -/
def sonStep (hash : Nat → Nat → Nat → Nat) (nblk m r k i : Nat) : Nat :=
  let j := (k + m - i % m) % m
  if j < nblk ∧ hash r k (max i j) % 2 = 1 then j else i

def sonRounds (hash : Nat → Nat → Nat → Nat) (nblk m : Nat) :
    List Nat → Nat → Nat → Nat
  | [], _, i => i
  | k :: ks, r, i => sonRounds hash nblk m ks (r + 1) (sonStep hash nblk m r k i)

/-- The BlockScheduler permutation: where physical position `i` is sent,
given the per-call swap-or-not round keys. -/
def blockPerm (hash : Nat → Nat → Nat → Nat) (keys : List Nat) (nblk i : Nat) : Nat :=
  sonRounds hash nblk (coverPow2 nblk) keys 0 i

/-- Inverse walk: apply the rounds in the reverse order. -/
def sonRoundsInv (hash : Nat → Nat → Nat → Nat) (nblk m : Nat) :
    List Nat → Nat → Nat → Nat
  | [], _, i => i
  | k :: ks, r, i => sonStep hash nblk m r k (sonRoundsInv hash nblk m ks (r + 1) i)

def blockPermInv (hash : Nat → Nat → Nat → Nat) (keys : List Nat) (nblk i : Nat) : Nat :=
  sonRoundsInv hash nblk (coverPow2 nblk) keys 0 i

theorem sonStep_lt (hash : Nat → Nat → Nat → Nat) {nblk m r k i : Nat} (h : i < nblk) :
    sonStep hash nblk m r k i < nblk := by
  simp only [sonStep]
  by_cases hc : (k + m - i % m) % m < nblk ∧ hash r k (max i ((k + m - i % m) % m)) % 2 = 1
  · rw [if_pos hc]
    exact hc.1
  · rw [if_neg hc]
    exact h

theorem sonStep_partner {m k i : Nat} (hm : 0 < m) (hi : i < m) :
    (k + m - ((k + m - i % m) % m) % m) % m = i := by
  have him : i % m = i := Nat.mod_eq_of_lt hi
  rw [him]
  have hj : (k + m - i) % m % m = (k + m - i) % m := Nat.mod_mod_of_dvd _ dvd_rfl
  rw [hj]
  have hdm : (k + m - i) = m * ((k + m - i) / m) + (k + m - i) % m := (Nat.div_add_mod _ m).symm
  have hle : i ≤ k + m := by omega
  have hjlt : (k + m - i) % m < m := Nat.mod_lt _ hm
  have hrw : k + m - (k + m - i) % m = i + m * ((k + m - i) / m) := by omega
  rw [hrw, Nat.add_mul_mod_self_left, Nat.mod_eq_of_lt hi]

/-- Each swap-or-not round is an involution on `[0, nblk)`. -/
theorem sonStep_involutive (hash : Nat → Nat → Nat → Nat) {nblk m r k i : Nat}
    (hm : 0 < m) (hnm : nblk ≤ m) (h : i < nblk) :
    sonStep hash nblk m r k (sonStep hash nblk m r k i) = i := by
  have him : i < m := lt_of_lt_of_le h hnm
  have hpart : (k + m - ((k + m - i % m) % m) % m) % m = i := sonStep_partner hm him
  by_cases hc : (k + m - i % m) % m < nblk ∧ hash r k (max i ((k + m - i % m) % m)) % 2 = 1
  · have hstep : sonStep hash nblk m r k i = (k + m - i % m) % m := by
      simp only [sonStep]
      rw [if_pos hc]
    rw [hstep]
    simp only [sonStep]
    rw [hpart, max_comm ((k + m - i % m) % m) i, if_pos ⟨h, hc.2⟩]
  · have hstep : sonStep hash nblk m r k i = i := by
      simp only [sonStep]
      rw [if_neg hc]
    rw [hstep, hstep]

theorem sonRoundsInv_lt (hash : Nat → Nat → Nat → Nat) {nblk m : Nat} :
    ∀ (ks : List Nat) (r i : Nat), i < nblk → sonRoundsInv hash nblk m ks r i < nblk := by
  intro ks
  induction ks with
  | nil => intro r i h; simpa [sonRoundsInv] using h
  | cons k rest ih =>
    intro r i h
    unfold sonRoundsInv
    exact sonStep_lt hash (ih (r + 1) i h)

theorem sonRounds_lt (hash : Nat → Nat → Nat → Nat) {nblk m : Nat} :
    ∀ (ks : List Nat) (r i : Nat), i < nblk → sonRounds hash nblk m ks r i < nblk := by
  intro ks
  induction ks with
  | nil => intro r i h; simpa [sonRounds] using h
  | cons k rest ih =>
    intro r i h
    unfold sonRounds
    exact ih (r + 1) _ (sonStep_lt hash h)

/-- The inverse walk is a right inverse of the permutation on `[0, nblk)`. -/
theorem sonRounds_sonRoundsInv (hash : Nat → Nat → Nat → Nat) {nblk m : Nat}
    (hm : 0 < m) (hnm : nblk ≤ m) :
    ∀ (ks : List Nat) (r i : Nat), i < nblk →
      sonRounds hash nblk m ks r (sonRoundsInv hash nblk m ks r i) = i := by
  intro ks
  induction ks with
  | nil => intro r i _; rfl
  | cons k rest ih =>
    intro r i h
    unfold sonRoundsInv sonRounds
    rw [sonStep_involutive hash hm hnm (sonRoundsInv_lt hash rest (r + 1) i h)]
    exact ih (r + 1) i h

theorem blockPerm_lt (hash : Nat → Nat → Nat → Nat) {keys : List Nat} {nblk i : Nat}
    (h : i < nblk) : blockPerm hash keys nblk i < nblk :=
  sonRounds_lt hash keys 0 i h

theorem blockPermInv_lt (hash : Nat → Nat → Nat → Nat) {keys : List Nat} {nblk i : Nat}
    (h : i < nblk) : blockPermInv hash keys nblk i < nblk :=
  sonRoundsInv_lt hash keys 0 i h

theorem blockPerm_blockPermInv (hash : Nat → Nat → Nat → Nat) {keys : List Nat}
    {nblk i : Nat} (hnblk : nblk ≤ 65536) (h : i < nblk) :
    blockPerm hash keys nblk (blockPermInv hash keys nblk i) = i :=
  sonRounds_sonRoundsInv hash (coverPow2_pos nblk) (coverPow2_ge hnblk) keys 0 i h

/-! ## StateMasker: the masked AES state and round pipeline

Modelled from the spec: the masked round pipeline of aes.S is not part of
the source snapshot.  The AES working state is held as shareA and shareB
plus a partial single-byte ShareC that is XORed into every shareA byte, with
the invariant `shareA xor shareB xor shareC == true state` bytewise.  (The
storage detail that shareB is physically kept rotated by 16 bits within each
word is a layout countermeasure that leaves every share-wise operation's
value unchanged, and is abstracted away here.)  Round keys are likewise held
as two shares plus a partial 32-bit ShareC term common to every round-key
word. -/

structure MaskedState where
  shA : List Nat
  shB : List Nat
  shC : Nat

/-- The single defined recombination: XOR the shares and the ShareC term. -/
def unmask (s : MaskedState) : List Nat :=
  (List.range 16).map (fun i => (byteAt s.shA i ^^^ byteAt s.shB i) ^^^ s.shC)

structure MaskedRoundKey where
  rkA : List Nat
  rkB : List Nat
  rkC : List Nat

/-- The round key encoded by a masked schedule entry: XOR of both shares and
the 4-byte ShareC word, the latter repeating across the four words. -/
def trueRoundKey (k : MaskedRoundKey) : List Nat :=
  (List.range 16).map (fun i => (byteAt k.rkA i ^^^ byteAt k.rkB i) ^^^ byteAt k.rkC (i % 4))

/-- ADDROUNDKEY, performed independently per share; the round-key ShareC word is
folded into the B share pass so the state ShareC byte is untouched. -/
def maskedAddRoundKey (k : MaskedRoundKey) (s : MaskedState) : MaskedState :=
  ⟨(List.range 16).map (fun i => byteAt s.shA i ^^^ byteAt k.rkA i),
   (List.range 16).map (fun i => (byteAt s.shB i ^^^ byteAt k.rkB i) ^^^ byteAt k.rkC (i % 4)),
   s.shC⟩

/-- A byte-position permutation applied to both shares (PERM16/VPERM: the
uniform permutation of the 16 state bytes entered before SBOX; the word
rotation is the special case permuting whole columns). -/
def maskedPermuteBytes (sigma : Nat → Nat) (s : MaskedState) : MaskedState :=
  ⟨(List.range 16).map (fun i => byteAt s.shA (sigma i)),
   (List.range 16).map (fun i => byteAt s.shB (sigma i)),
   s.shC⟩

/-- A randomized SBox lookup table: contents are the SBox shifted by the
input mask `rin` and masked by the output mask `rout`. -/
def maskedTable (rin rout x : Nat) : Nat := sbox (x ^^^ rin) ^^^ rout

/-- MaskedSBox: shareA (ShareC-mixed) and shareB (input-masked) index the
randomized table; the output shares are the table value re-mixed with ShareC
and the fresh output masks.  The true byte is never formed: the table index
equals `true xor rin`. -/
def maskedSubBytes (rin : Nat) (rout : List Nat) (s : MaskedState) : MaskedState :=
  ⟨(List.range 16).map (fun i =>
      maskedTable rin (byteAt rout i) ((byteAt s.shA i ^^^ s.shC) ^^^ (byteAt s.shB i ^^^ rin))
        ^^^ s.shC),
   (List.range 16).map (fun i => byteAt rout i),
   s.shC⟩

/-- SHIFTROWS applied share-wise. -/
def maskedShiftRows (s : MaskedState) : MaskedState :=
  ⟨shiftRows s.shA, shiftRows s.shB, s.shC⟩

/-- MIXCOLUMNS applied share-wise (linear, commutes with the sharing). -/
def maskedMixColumns (s : MaskedState) : MaskedState :=
  ⟨mixColumns s.shA, mixColumns s.shB, s.shC⟩

/-- Generic variant of `byteAt_rangeMap` for non-`Nat` element types. -/
theorem getD_rangeMap {α : Type} (n : Nat) (f : Nat → α) (d : α) (i : Nat) (h : i < n) :
    ((List.range n).map f).getD i d = f i := by
  rw [List.getD_eq_getElem _ _ (by simpa using h)]
  simp

def mrkDefault : MaskedRoundKey := ⟨[], [], []⟩

/-- RandomSource as seen by one decrypt call: its seeding state and every
draw the call consumes (masks, ShareC bytes, SBox table masks, per-round
byte permutations with their inverses, swap-or-not round keys, and the
well-mixing hash).  Modelled from the spec: RandomSource itself (SHA-256 or
LFSR backed) lives in aes.S, outside this source snapshot. -/
structure Randomness where
  seeded : Bool
  blockMask : Nat → List Nat
  shareC : Nat
  rkMask : Nat → List Nat
  rkC : List Nat
  sboxIn : Nat → Nat
  sboxOut : Nat → List Nat
  permB : Nat → Nat → Nat
  permBInv : Nat → Nat → Nat
  permKeys : List Nat
  hash : Nat → Nat → Nat → Nat

/-- Well-formedness of the drawn randomness: the per-round byte permutation
really is a permutation of the 16 byte positions. -/
def Randomness.WF (rnd : Randomness) : Prop :=
  ∀ r i, i < 16 →
    rnd.permB r i < 16 ∧ rnd.permBInv r i < 16 ∧ rnd.permB r (rnd.permBInv r i) = i

/-- Per-block construction of the masked state from the CTR counter value:
shareB is the fresh mask, shareA carries the counter XOR mask XOR ShareC. -/
def initialMaskedState (rnd : Randomness) (b : Nat) (ctr : List Nat) : MaskedState :=
  ⟨(List.range 16).map (fun i => (byteAt ctr i ^^^ byteAt (rnd.blockMask b) i) ^^^ rnd.shareC),
   (List.range 16).map (fun i => byteAt (rnd.blockMask b) i),
   rnd.shareC⟩

/-- The masked round-key schedule: each round key is stored as two shares
plus the common ShareC word, never in the clear. -/
def maskedSchedule (rnd : Randomness) (key : List Nat) : List MaskedRoundKey :=
  (List.range 15).map (fun r =>
    ⟨(List.range 16).map (fun i =>
        (byteAt (roundKeyOf key r) i ^^^ byteAt (rnd.rkMask r) i) ^^^ byteAt rnd.rkC (i % 4)),
     (List.range 16).map (fun i => byteAt (rnd.rkMask r) i),
     rnd.rkC⟩)

/-- Modelled from the spec: the KeyExpander of aes.S consumes the 128-byte
4-way-shared key material and produces the masked, permuted schedule of 15
round keys.  The model captures its input/output contract: the schedule it
emits encodes exactly the AES-256 expansion of the key reconstructed from
the 4-way share (the share-wise internal computation is abstracted). -/
def keyExpander (rnd : Randomness) (k4 : List Nat) : List MaskedRoundKey :=
  maskedSchedule rnd (reconstruct4 k4)

/-- One masked round, per spec section 4.4: ADDROUNDKEY, the uniform byte
permutation entering SBOX, MaskedSBox, the permutation leaving again,
SHIFTROWS, and (rounds 0-12) MIXCOLUMNS. -/
def maskedRound (rnd : Randomness) (sched : List MaskedRoundKey) (s : MaskedState) (r : Nat) :
    MaskedState :=
  let s1 := maskedAddRoundKey (sched.getD r mrkDefault) s
  let s2 := maskedPermuteBytes (rnd.permB r) s1
  let s3 := maskedSubBytes (rnd.sboxIn r) (rnd.sboxOut r) s2
  let s4 := maskedPermuteBytes (rnd.permBInv r) s3
  let s5 := maskedShiftRows s4
  if r ≤ 12 then maskedMixColumns s5 else s5

/-- The keystream block for one counter value: 14 masked rounds, the final
ADDROUNDKEY, and the single recombination of the shares. -/
def maskedKeystream (rnd : Randomness) (sched : List MaskedRoundKey) (b : Nat)
    (ctr : List Nat) : List Nat :=
  unmask (maskedAddRoundKey (sched.getD 14 mrkDefault)
    ((List.range 14).foldl (maskedRound rnd sched) (initialMaskedState rnd b ctr)))

/-! ### The masking invariant: every masked operation commutes with `unmask` -/

/-- A byte-position remap of the plain state (the unmasked image of
`maskedPermuteBytes`). -/
def applyIdx (sigma : Nat → Nat) (x : List Nat) : List Nat :=
  (List.range 16).map (fun i => byteAt x (sigma i))

theorem unmask_maskedAddRoundKey (k : MaskedRoundKey) (s : MaskedState) :
    unmask (maskedAddRoundKey k s) = addRK (trueRoundKey k) (unmask s) := by
  unfold unmask maskedAddRoundKey addRK trueRoundKey
  apply rangeMap_congr
  intro i hi
  simp only [byteAt_rangeMap _ _ _ hi]
  simp [Nat.xor_assoc, Nat.xor_comm, xor_left_comm]

theorem unmask_maskedPermuteBytes {sigma : Nat → Nat} (hs : ∀ i < 16, sigma i < 16)
    (s : MaskedState) :
    unmask (maskedPermuteBytes sigma s) = applyIdx sigma (unmask s) := by
  unfold unmask maskedPermuteBytes applyIdx
  apply rangeMap_congr
  intro i hi
  simp only [byteAt_rangeMap _ _ _ hi, byteAt_rangeMap _ _ _ (hs i hi)]

theorem unmask_maskedSubBytes (rin : Nat) (rout : List Nat) (s : MaskedState) :
    unmask (maskedSubBytes rin rout s) = subBytes (unmask s) := by
  unfold unmask maskedSubBytes subBytes maskedTable
  apply rangeMap_congr
  intro i hi
  simp only [byteAt_rangeMap _ _ _ hi]
  have harg : ((byteAt s.shA i ^^^ s.shC) ^^^ (byteAt s.shB i ^^^ rin)) ^^^ rin =
      (byteAt s.shA i ^^^ byteAt s.shB i) ^^^ s.shC := by
    simp [Nat.xor_assoc, Nat.xor_comm, xor_left_comm, xor_cancel_left]
  rw [harg]
  simp [Nat.xor_assoc, Nat.xor_comm, xor_left_comm, xor_cancel_left]

theorem unmask_maskedShiftRows (s : MaskedState) :
    unmask (maskedShiftRows s) = shiftRows (unmask s) := by
  unfold unmask maskedShiftRows shiftRows
  apply rangeMap_congr
  intro i hi
  simp only [byteAt_rangeMap _ _ _ hi, byteAt_rangeMap _ _ _ (shiftIdx_lt i)]

/-- The (2,3,1,1) MIXCOLUMNS row is GF(2)-linear and fixes a constant
column, so it distributes over the shares and absorbs ShareC. -/
theorem mix_linear (a0 a1 a2 a3 b0 b1 b2 b3 c : Nat) :
    ((xtime a0 ^^^ mul3 a1) ^^^ (a2 ^^^ a3)) ^^^ ((xtime b0 ^^^ mul3 b1) ^^^ (b2 ^^^ b3))
      ^^^ c =
    (xtime ((a0 ^^^ b0) ^^^ c) ^^^ mul3 ((a1 ^^^ b1) ^^^ c)) ^^^
      (((a2 ^^^ b2) ^^^ c) ^^^ ((a3 ^^^ b3) ^^^ c)) := by
  simp only [xtime_xor, mul3_xor, mul3]
  simp [Nat.xor_assoc, Nat.xor_comm, xor_left_comm, xor_cancel_left]

theorem unmask_maskedMixColumns (s : MaskedState) :
    unmask (maskedMixColumns s) = mixColumns (unmask s) := by
  unfold unmask maskedMixColumns mixColumns
  apply rangeMap_congr
  intro i hi
  have hidx : ∀ k, 4 * (i / 4) + (i % 4 + k) % 4 < 16 := by
    intro k
    omega
  simp only [byteAt_rangeMap _ _ _ hi, mixByte, byteAt_rangeMap _ _ _ (hidx 0),
    byteAt_rangeMap _ _ _ (hidx 1), byteAt_rangeMap _ _ _ (hidx 2),
    byteAt_rangeMap _ _ _ (hidx 3)]
  exact mix_linear _ _ _ _ _ _ _ _ _

theorem applyIdx_subBytes_applyIdx {sigma tau : Nat → Nat}
    (hst : ∀ i < 16, sigma i < 16 ∧ tau i < 16 ∧ sigma (tau i) = i) (x : List Nat) :
    applyIdx tau (subBytes (applyIdx sigma x)) = subBytes x := by
  unfold applyIdx subBytes
  apply rangeMap_congr
  intro i hi
  rw [byteAt_rangeMap _ _ _ (hst i hi).2.1, byteAt_rangeMap _ _ _ (hst i hi).2.1,
      (hst i hi).2.2]

theorem trueRoundKey_maskedSchedule (rnd : Randomness) (key : List Nat) {r : Nat}
    (hr : r < 15) :
    trueRoundKey ((maskedSchedule rnd key).getD r mrkDefault) = roundKeyOf key r := by
  have hlen : (roundKeyOf key r).length = 16 := by
    unfold roundKeyOf
    simp
  have h1 : trueRoundKey ((maskedSchedule rnd key).getD r mrkDefault) =
      (List.range 16).map (fun i => byteAt (roundKeyOf key r) i) := by
    unfold maskedSchedule
    rw [getD_rangeMap _ _ _ _ hr]
    unfold trueRoundKey
    apply rangeMap_congr
    intro i hi
    simp only [byteAt_rangeMap _ _ _ hi]
    simp [Nat.xor_assoc, Nat.xor_comm, xor_left_comm, xor_cancel_left]
  rw [h1, eq_rangeMap_byteAt hlen]

theorem unmask_initialMaskedState (rnd : Randomness) (b : Nat) {ctr : List Nat}
    (hlen : ctr.length = 16) : unmask (initialMaskedState rnd b ctr) = ctr := by
  have h1 : unmask (initialMaskedState rnd b ctr) =
      (List.range 16).map (fun i => byteAt ctr i) := by
    unfold unmask initialMaskedState
    apply rangeMap_congr
    intro i hi
    simp only [byteAt_rangeMap _ _ _ hi]
    simp [Nat.xor_assoc, Nat.xor_comm, xor_left_comm, xor_cancel_left]
  rw [h1, eq_rangeMap_byteAt hlen]

theorem unmask_maskedRound {rnd : Randomness} (hwf : rnd.WF) {key : List Nat}
    {sched : List MaskedRoundKey}
    (hsched : ∀ r < 15, trueRoundKey (sched.getD r mrkDefault) = roundKeyOf key r)
    {r : Nat} (hr : r < 14) (s : MaskedState) :
    unmask (maskedRound rnd sched s r) = aesRound key (unmask s) r := by
  have hperm : ∀ i < 16, rnd.permB r i < 16 ∧ rnd.permBInv r i < 16 ∧
      rnd.permB r (rnd.permBInv r i) = i := fun i hi => hwf r i hi
  have h1 : unmask (maskedAddRoundKey (sched.getD r mrkDefault) s) =
      addRK (roundKeyOf key r) (unmask s) := by
    rw [unmask_maskedAddRoundKey, hsched r (by omega)]
  have h2 := @unmask_maskedPermuteBytes (rnd.permB r)
    (fun i hi => (hperm i hi).1) (maskedAddRoundKey (sched.getD r mrkDefault) s)
  have h3 := unmask_maskedSubBytes (rnd.sboxIn r) (rnd.sboxOut r)
    (maskedPermuteBytes (rnd.permB r) (maskedAddRoundKey (sched.getD r mrkDefault) s))
  have h4 := @unmask_maskedPermuteBytes (rnd.permBInv r)
    (fun i hi => (hperm i hi).2.1)
    (maskedSubBytes (rnd.sboxIn r) (rnd.sboxOut r)
      (maskedPermuteBytes (rnd.permB r) (maskedAddRoundKey (sched.getD r mrkDefault) s)))
  unfold maskedRound aesRound
  by_cases hc : r ≤ 12
  · simp only [hc, if_pos]
    rw [unmask_maskedMixColumns, unmask_maskedShiftRows, h4, h3, h2, h1,
        applyIdx_subBytes_applyIdx hperm]
  · simp only [hc, if_neg, if_false]
    rw [unmask_maskedShiftRows, h4, h3, h2, h1, applyIdx_subBytes_applyIdx hperm]

theorem unmask_maskedRounds {rnd : Randomness} (hwf : rnd.WF) {key : List Nat}
    {sched : List MaskedRoundKey}
    (hsched : ∀ r < 15, trueRoundKey (sched.getD r mrkDefault) = roundKeyOf key r) :
    ∀ (l : List Nat), (∀ r ∈ l, r < 14) → ∀ s : MaskedState,
      unmask (l.foldl (maskedRound rnd sched) s) = l.foldl (aesRound key) (unmask s) := by
  intro l
  induction l with
  | nil => intro _ s; rfl
  | cons r rest ih =>
    intro hmem s
    simp only [List.foldl_cons]
    rw [ih (fun x hx => hmem x (List.mem_cons_of_mem r hx)),
        unmask_maskedRound hwf hsched (hmem r (List.mem_cons_self r rest)) s]

/-- The recombined keystream block equals plain AES-256 on the counter:
the masks, permutations and ShareC terms all cancel. -/
theorem maskedKeystream_eq {rnd : Randomness} (hwf : rnd.WF) (key : List Nat) (b : Nat)
    {ctr : List Nat} (hlen : ctr.length = 16) :
    maskedKeystream rnd (maskedSchedule rnd key) b ctr = aes256Encrypt key ctr := by
  unfold maskedKeystream aes256Encrypt
  rw [unmask_maskedAddRoundKey, trueRoundKey_maskedSchedule rnd key (by omega),
      unmask_maskedRounds hwf (fun r hr => trueRoundKey_maskedSchedule rnd key hr)
        (List.range 14) (fun r hr => List.mem_range.mp hr) _,
      unmask_initialMaskedState rnd b hlen]

/-! ## The decrypt operation -/

/-- Error taxonomy of spec section 7. -/
inductive DecError where
  | configurationError : DecError
  | inputRangeError : DecError
deriving DecidableEq

theorem getD_set_self {α : Type} (l : List α) (j : Nat) (v d : α) (h : j < l.length) :
    (l.set j v).getD j d = v := by
  rw [List.getD_eq_getElem _ _ (by simpa using h)]
  exact List.getElem_set_self _

theorem getD_set_ne {α : Type} (l : List α) {i j : Nat} (v : α) (d : α) (h : i ≠ j) :
    (l.set j v).getD i d = l.getD i d := by
  by_cases hi : i < l.length
  · rw [List.getD_eq_getElem _ _ (by simpa using hi), List.getD_eq_getElem _ _ hi]
    exact List.getElem_set_ne (Ne.symm h) _
  · rw [List.getD_eq_default _ _ (by simpa using Nat.le_of_not_lt hi),
        List.getD_eq_default _ _ (Nat.le_of_not_lt hi)]

/-- The in-place write loop of a decrypt call: visit the physical positions
`ps` in order, send each through the block permutation `g`, and overwrite
logical slot `g p` with `w (g p)` of its old contents. -/
def writeLoop (g : Nat → Nat) (w : Nat → List Nat → List Nat)
    (ps : List Nat) (acc : List (List Nat)) : List (List Nat) :=
  ps.foldl (fun a p => a.set (g p) (w (g p) (a.getD (g p) []))) acc

theorem writeLoop_length (g : Nat → Nat) (w : Nat → List Nat → List Nat) :
    ∀ (ps : List Nat) (acc : List (List Nat)), (writeLoop g w ps acc).length = acc.length := by
  intro ps
  induction ps with
  | nil => intro acc; rfl
  | cons p rest ih =>
    intro acc
    unfold writeLoop at ih ⊢
    rw [List.foldl_cons, ih]
    simp

/-- Slot contents after the write loop: every slot reached by `g` holds the
transform of its original contents, every other slot is untouched. -/
theorem writeLoop_getD (g : Nat → Nat) (w : Nat → List Nat → List Nat)
    (init : List (List Nat)) :
    ∀ (ps : List Nat) (acc : List (List Nat)),
      acc.length = init.length →
      (∀ p ∈ ps, g p < init.length) →
      (ps.map g).Nodup →
      (∀ i < init.length, i ∈ ps.map g → acc.getD i [] = init.getD i []) →
      ∀ i, i < init.length →
        (writeLoop g w ps acc).getD i [] =
          if i ∈ ps.map g then w i (init.getD i []) else acc.getD i [] := by
  intro ps
  induction ps with
  | nil =>
    intro acc _ _ _ _ i _
    simp [writeLoop]
  | cons p rest ih =>
    intro acc hlen hg hnd hpre i hi
    have hgp : g p < init.length := hg p (List.mem_cons_self p rest)
    have hgp' : g p < acc.length := by omega
    have hold : acc.getD (g p) [] = init.getD (g p) [] :=
      hpre (g p) hgp (List.mem_map_of_mem g (List.mem_cons_self p rest))
    have hstep : writeLoop g w (p :: rest) acc =
        writeLoop g w rest (acc.set (g p) (w (g p) (init.getD (g p) []))) := by
      unfold writeLoop
      rw [List.foldl_cons, hold]
    have hnd' : (rest.map g).Nodup := by
      simp only [List.map_cons, List.nodup_cons] at hnd
      exact hnd.2
    have hgpnotin : g p ∉ rest.map g := by
      simp only [List.map_cons, List.nodup_cons] at hnd
      exact hnd.1
    have hpre' : ∀ i < init.length, i ∈ rest.map g →
        (acc.set (g p) (w (g p) (init.getD (g p) []))).getD i [] = init.getD i [] := by
      intro i hilen himem
      have hne : i ≠ g p := fun he => hgpnotin (he ▸ himem)
      rw [getD_set_ne _ _ _ hne]
      exact hpre i hilen (List.mem_cons_of_mem _ himem)
    have hlen' : (acc.set (g p) (w (g p) (init.getD (g p) []))).length = init.length := by
      simpa using hlen
    rw [hstep, ih _ hlen' (fun q hq => hg q (List.mem_cons_of_mem p hq)) hnd' hpre' i hi]
    by_cases hmem : i ∈ rest.map g
    · have hin : i ∈ (p :: rest).map g := by
        simp only [List.map_cons, List.mem_cons]
        exact Or.inr hmem
      rw [if_pos hmem, if_pos hin]
    · rw [if_neg hmem]
      by_cases hip : i = g p
      · subst hip
        rw [getD_set_self _ _ _ _ hgp',
            if_pos (List.mem_map_of_mem g (List.mem_cons_self p rest))]
      · rw [getD_set_ne _ _ _ hip]
        have hnotin : i ∉ (p :: rest).map g := by
          simp only [List.map_cons, List.mem_cons]
          push_neg
          exact ⟨hip, hmem⟩
        rw [if_neg hnotin]

/-- Modelled from the spec: the `decrypt` entry point of aes.S.  It checks
the input range and configuration, expands the 4-way-shared key to the
masked schedule, draws the per-call block permutation, then visits the
physical positions `0..nblk-1` in order, decrypting logical block
`perm(p)` at physical step `p` and writing the plaintext into logical slot
`perm(p)` of the block array. -/
def decryptCore (k4 iv : List Nat) (blocks : List (List Nat)) (nblk : Nat)
    (rnd : Randomness) : List (List Nat) :=
  let sched := keyExpander rnd k4
  writeLoop (blockPerm rnd.hash rnd.permKeys nblk)
    (fun j old => xor16 (maskedKeystream rnd sched j (ctrBlock iv j)) old)
    (List.range nblk) blocks

/-- Modelled from the spec: the external `decrypt` interface
(`decrypt(key4way, IV_OTPsalt, IV_public, buf, nblk)`).  `keySet` is the
key material installed by the key-set collaborator (`none` when no key was
ever set); the pair returned is the error outcome and the final contents of
the caller's block array, which is left unchanged on any error (fail
closed). -/
def decrypt : Option (List Nat) → List Nat → List Nat → List (List Nat) → Nat →
    Randomness → Option DecError × List (List Nat)
  | none, _, _, blocks, nblk, _ =>
    if nblk < 1 ∨ 32768 < nblk then (some DecError.inputRangeError, blocks)
    else (some DecError.configurationError, blocks)
  | some k4, _, ivPub, blocks, nblk, rnd =>
    if nblk < 1 ∨ 32768 < nblk then (some DecError.inputRangeError, blocks)
    else if k4.length ≠ 128 then (some DecError.inputRangeError, blocks)
    else if rnd.seeded = false then (some DecError.configurationError, blocks)
    else (none, decryptCore k4 ivPub blocks nblk rnd)

/-- The inverse walk is also a left inverse on `[0, nblk)`. -/
theorem sonRoundsInv_sonRounds (hash : Nat → Nat → Nat → Nat) {nblk m : Nat}
    (hm : 0 < m) (hnm : nblk ≤ m) :
    ∀ (ks : List Nat) (r i : Nat), i < nblk →
      sonRoundsInv hash nblk m ks r (sonRounds hash nblk m ks r i) = i := by
  intro ks
  induction ks with
  | nil => intro r i _; rfl
  | cons k rest ih =>
    intro r i h
    unfold sonRounds sonRoundsInv
    rw [ih (r + 1) _ (sonStep_lt hash h)]
    exact sonStep_involutive hash hm hnm h

theorem blockPermInv_blockPerm (hash : Nat → Nat → Nat → Nat) {keys : List Nat}
    {nblk i : Nat} (hnblk : nblk ≤ 65536) (h : i < nblk) :
    blockPermInv hash keys nblk (blockPerm hash keys nblk i) = i :=
  sonRoundsInv_sonRounds hash (coverPow2_pos nblk) (coverPow2_ge hnblk) keys 0 i h

theorem blockPerm_injOn (hash : Nat → Nat → Nat → Nat) {keys : List Nat} {nblk : Nat}
    (hnblk : nblk ≤ 65536) {p q : Nat} (hp : p < nblk) (hq : q < nblk)
    (he : blockPerm hash keys nblk p = blockPerm hash keys nblk q) : p = q := by
  have h1 := @blockPermInv_blockPerm hash keys nblk p hnblk hp
  have h2 := @blockPermInv_blockPerm hash keys nblk q hnblk hq
  rw [← h1, ← h2, he]

theorem blockPerm_map_nodup (hash : Nat → Nat → Nat → Nat) (keys : List Nat) {nblk : Nat}
    (hnblk : nblk ≤ 65536) :
    ((List.range nblk).map (blockPerm hash keys nblk)).Nodup := by
  apply List.Nodup.map_on
  · intro p hp q hq he
    exact blockPerm_injOn hash hnblk (List.mem_range.mp hp) (List.mem_range.mp hq) he
  · exact List.nodup_range nblk

theorem blockPerm_map_mem (hash : Nat → Nat → Nat → Nat) (keys : List Nat) {nblk i : Nat}
    (hnblk : nblk ≤ 65536) (hi : i < nblk) :
    i ∈ (List.range nblk).map (blockPerm hash keys nblk) := by
  apply List.mem_map.mpr
  exact ⟨blockPermInv hash keys nblk i,
    List.mem_range.mpr (blockPermInv_lt hash hi),
    blockPerm_blockPermInv hash hnblk hi⟩

theorem ctrBlock_length (iv : List Nat) (b : Nat) : (ctrBlock iv b).length = 16 := by
  unfold ctrBlock nToBytes16
  simp

theorem eq_of_length_getD {x y : List (List Nat)} (hl : x.length = y.length)
    (h : ∀ i < x.length, x.getD i [] = y.getD i []) : x = y := by
  apply List.ext_getElem hl
  intro i h1 h2
  have := h i h1
  rwa [List.getD_eq_getElem _ _ h1, List.getD_eq_getElem _ _ h2] at this

/-- Core correctness: one decrypt call equals plain AES-256-CTR applied
blockwise under the reconstructed key, whatever randomness was drawn. -/
theorem decryptCore_eq {rnd : Randomness} (hwf : rnd.WF) (k4 iv : List Nat)
    {blocks : List (List Nat)} {nblk : Nat} (hnblk : nblk ≤ 65536)
    (hblen : blocks.length = nblk) :
    decryptCore k4 iv blocks nblk rnd = ctrXor (reconstruct4 k4) iv blocks := by
  unfold decryptCore
  have hks : ∀ j old, xor16 (maskedKeystream rnd (keyExpander rnd k4) j (ctrBlock iv j)) old
      = xor16 (aes256Encrypt (reconstruct4 k4) (ctrBlock iv j)) old := by
    intro j old
    rw [show keyExpander rnd k4 = maskedSchedule rnd (reconstruct4 k4) from rfl,
        maskedKeystream_eq hwf (reconstruct4 k4) j (ctrBlock_length iv j)]
  have hfun : writeLoop (blockPerm rnd.hash rnd.permKeys nblk)
        (fun j old => xor16 (maskedKeystream rnd (keyExpander rnd k4) j (ctrBlock iv j)) old)
        (List.range nblk) blocks =
      writeLoop (blockPerm rnd.hash rnd.permKeys nblk)
        (fun j old => xor16 (aes256Encrypt (reconstruct4 k4) (ctrBlock iv j)) old)
        (List.range nblk) blocks := by
    congr 1
    funext j old
    exact hks j old
  rw [hfun]
  have hlen' : (writeLoop (blockPerm rnd.hash rnd.permKeys nblk)
      (fun j old => xor16 (aes256Encrypt (reconstruct4 k4) (ctrBlock iv j)) old)
      (List.range nblk) blocks).length = blocks.length := writeLoop_length _ _ _ _
  apply eq_of_length_getD
  · rw [hlen']
    unfold ctrXor
    simp
  · rw [hlen', hblen]
    intro i hi
    have hspec := writeLoop_getD (blockPerm rnd.hash rnd.permKeys nblk)
      (fun j old => xor16 (aes256Encrypt (reconstruct4 k4) (ctrBlock iv j)) old)
      blocks (List.range nblk) blocks rfl
      (fun p hp => by
        rw [hblen]
        exact blockPerm_lt rnd.hash (List.mem_range.mp hp))
      (blockPerm_map_nodup rnd.hash rnd.permKeys hnblk)
      (fun _ _ _ => rfl) i (by omega)
    rw [hspec, if_pos (blockPerm_map_mem rnd.hash rnd.permKeys hnblk hi)]
    unfold ctrXor
    rw [getD_rangeMap _ _ _ _ (show i < blocks.length by omega)]

theorem eq_rangeMap_getD {α : Type} {x : List α} {n : Nat} (d : α) (h : x.length = n) :
    (List.range n).map (fun i => x.getD i d) = x := by
  apply List.ext_getElem
  · simp [h]
  · intro i h1 h2
    simp only [List.getElem_map, List.getElem_range]
    rw [List.getD_eq_getElem _ _ h2]

theorem xor16_xor16 {ks b : List Nat} (hb : b.length = 16) :
    xor16 ks (xor16 ks b) = b := by
  have h1 : xor16 ks (xor16 ks b) = (List.range 16).map (fun t => byteAt b t) := by
    unfold xor16
    apply rangeMap_congr
    intro t ht
    rw [byteAt_rangeMap _ _ _ ht, xor_cancel_left]
  rw [h1, eq_rangeMap_byteAt hb]

theorem ctrXor_length (key iv : List Nat) (blocks : List (List Nat)) :
    (ctrXor key iv blocks).length = blocks.length := by
  unfold ctrXor
  simp

/-- CTR is an involution: decrypting an encryption restores the plaintext. -/
theorem ctrXor_ctrXor (key iv : List Nat) {P : List (List Nat)}
    (hP : ∀ b ∈ P, b.length = 16) : ctrXor key iv (ctrXor key iv P) = P := by
  have h1 : ctrXor key iv (ctrXor key iv P) =
      (List.range P.length).map (fun i => P.getD i []) := by
    unfold ctrXor
    simp only [List.length_map, List.length_range]
    apply List.map_congr_left
    intro i hi
    have hi' : i < P.length := List.mem_range.mp hi
    rw [getD_rangeMap _ _ _ _ hi']
    apply xor16_xor16
    apply hP
    rw [List.getD_eq_getElem _ _ hi']
    exact List.getElem_mem hi'
  rw [h1, eq_rangeMap_getD [] rfl]

/-- The physical-order image of the block permutation is a rearrangement of
`0, ..., nblk-1`. -/
theorem blockPerm_list_perm (hash : Nat → Nat → Nat → Nat) (keys : List Nat) {nblk : Nat}
    (hnblk : nblk ≤ 65536) :
    ((List.range nblk).map (blockPerm hash keys nblk)).Perm (List.range nblk) := by
  apply List.Subperm.perm_of_length_le
  · apply List.subperm_of_subset (blockPerm_map_nodup hash keys hnblk)
    intro x hx
    rcases List.mem_map.mp hx with ⟨p, hp, rfl⟩
    exact List.mem_range.mpr (blockPerm_lt hash (List.mem_range.mp hp))
  · simp

/-- A fixed, trivially well-formed draw of randomness (identity permutations,
zero masks): used to instantiate theorems at concrete inputs. -/
def plainRnd : Randomness :=
  ⟨true, fun _ => List.replicate 16 0, 0, fun _ => List.replicate 16 0,
   List.replicate 4 0, fun _ => 0, fun _ => List.replicate 16 0,
   fun _ i => i, fun _ i => i, [], fun _ _ _ => 0⟩

theorem plainRnd_wf : plainRnd.WF := by
  intro r i hi
  exact ⟨hi, hi, rfl⟩

/-! ## Emulation stub for the RCP fault-injection macros

Translated from src/emulation/include/hardware/rcp.h: in the emulation
build (HARDENING=0), every `rcp_*` assembler checking macro has an empty
body, and `rcp_panic` expands to `b .`, an unconditional branch to itself. -/

/-- The RCP checking macros defined (empty) in rcp.h. -/
inductive RcpCheck where
  | bvalid | bvalidNodelay
  | btrue | btrueNodelay
  | bfalse | bfalseNodelay
  | b2valid | b2validNodelay
  | b2and | b2andNodelay
  | b2or | b2orNodelay
  | bxorvalid | bxorvalidNodelay
  | bxortrue | bxortrueNodelay
  | bxorfalse | bxorfalseNodelay
  | ivalid | ivalidNodelay
  | iequal | iequalNodelay
  | countSet | countSetNodelay
  | countCheck | countCheckNodelay
  | canaryGet | canaryGetNodelay
  | canaryCheck | canaryCheckNodelay
deriving DecidableEq

/-- Emitted instructions: an ordinary instruction (abstract opcode) or the
self-branch `b .`. -/
inductive Instr where
  | op : Nat → Instr
  | brSelf : Instr
deriving DecidableEq

/-- Items of an assembly source: ordinary instructions, invocations of the
rcp checking macros, and invocations of rcp_panic. -/
inductive AsmItem where
  | instr : Instr → AsmItem
  | check : RcpCheck → AsmItem
  | panicCall : AsmItem
deriving DecidableEq

/-- rcp.h emulation expansion: checking macros expand to zero instructions,
`rcp_panic` expands to the infinite loop `b .`. -/
def expandEmu : AsmItem → List Instr
  | AsmItem.instr i => [i]
  | AsmItem.check _ => []
  | AsmItem.panicCall => [Instr.brSelf]

def expandProg (f : AsmItem → List Instr) : List AsmItem → List Instr
  | [] => []
  | it :: rest => f it ++ expandProg f rest

/-- Source with every RCP checking macro invocation deleted. -/
def stripChecks : List AsmItem → List AsmItem
  | [] => []
  | AsmItem.check _ :: rest => stripChecks rest
  | it :: rest => it :: stripChecks rest

/-- Straight-line execution: `b .` stays put, anything else advances. -/
def stepPc (prog : List Instr) (pc : Nat) : Nat :=
  if prog.getD pc (Instr.op 0) = Instr.brSelf then pc else pc + 1

def runPc (prog : List Instr) : Nat → Nat → Nat
  | 0, pc => pc
  | n + 1, pc => runPc prog n (stepPc prog pc)

theorem expandProg_stripChecks (p : List AsmItem) :
    expandProg expandEmu p = expandProg expandEmu (stripChecks p) := by
  induction p with
  | nil => rfl
  | cons it rest ih =>
    cases it with
    | instr i =>
      show expandEmu (AsmItem.instr i) ++ expandProg expandEmu rest = _
      rw [ih]
      rfl
    | check c =>
      show expandEmu (AsmItem.check c) ++ expandProg expandEmu rest = _
      rw [ih]
      rfl
    | panicCall =>
      show expandEmu AsmItem.panicCall ++ expandProg expandEmu rest = _
      rw [ih]
      rfl

theorem runPc_brSelf {prog : List Instr} {pc : Nat}
    (h : prog.getD pc (Instr.op 0) = Instr.brSelf) : ∀ n, runPc prog n pc = pc := by
  intro n
  induction n with
  | zero => rfl
  | succ m ih =>
    show runPc prog m (stepPc prog pc) = pc
    unfold stepPc
    rw [if_pos h]
    exact ih

/-- A successful decrypt call reduces to the core transform. -/
theorem decrypt_ok (k4 salt iv : List Nat) (blocks : List (List Nat)) (nblk : Nat)
    (rnd : Randomness) (h1 : 1 ≤ nblk) (h2 : nblk ≤ 32768) (hlen : k4.length = 128)
    (hs : rnd.seeded = true) :
    decrypt (some k4) salt iv blocks nblk rnd = (none, decryptCore k4 iv blocks nblk rnd) := by
  show (if nblk < 1 ∨ 32768 < nblk then (some DecError.inputRangeError, blocks)
    else if k4.length ≠ 128 then (some DecError.inputRangeError, blocks)
    else if rnd.seeded = false then (some DecError.configurationError, blocks)
    else (none, decryptCore k4 iv blocks nblk rnd)) = _
  rw [if_neg (by omega), if_neg (by omega), hs, if_neg (by simp)]

/-- A successful decrypt call equals blockwise AES-256-CTR under the key
encoded by the 4-way share. -/
theorem decrypt_eq_ctr (k4 salt iv : List Nat) (blocks : List (List Nat)) (nblk : Nat)
    (rnd : Randomness) (hwf : rnd.WF) (h1 : 1 ≤ nblk) (h2 : nblk ≤ 32768)
    (hlen : k4.length = 128) (hs : rnd.seeded = true) (hblen : blocks.length = nblk) :
    decrypt (some k4) salt iv blocks nblk rnd =
      (none, ctrXor (reconstruct4 k4) iv blocks) := by
  rw [decrypt_ok k4 salt iv blocks nblk rnd h1 h2 hlen hs,
      decryptCore_eq hwf k4 iv (le_trans h2 (by norm_num)) hblen]

/-- Round trip under an arbitrary well-formed draw of randomness. -/
theorem decrypt_roundtrip (K r1 r2 r3 salt iv : List Nat) (P : List (List Nat))
    (nblk : Nat) (rnd : Randomness) (hwf : rnd.WF) (hs : rnd.seeded = true)
    (hK : K.length = 32) (h1 : 1 ≤ nblk) (h2 : nblk ≤ 32768) (hPlen : P.length = nblk)
    (hPblk : ∀ b ∈ P, b.length = 16) :
    decrypt (some (share4 K r1 r2 r3)) salt iv (ctrXor K iv P) nblk rnd = (none, P) := by
  have hkey : reconstruct4 (share4 K r1 r2 r3) = K := by
    rw [reconstruct4_share4, eq_rangeMap_byteAt hK]
  rw [decrypt_eq_ctr _ salt iv _ nblk rnd hwf h1 h2 (share4_length K r1 r2 r3) hs
        (by rw [ctrXor_length, hPlen]),
      hkey, ctrXor_ctrXor K iv hPblk]

theorem decrypt_range_error (keySet : Option (List Nat)) (salt iv : List Nat)
    (blocks : List (List Nat)) (nblk : Nat) (rnd : Randomness)
    (h : nblk < 1 ∨ 32768 < nblk) :
    decrypt keySet salt iv blocks nblk rnd = (some DecError.inputRangeError, blocks) := by
  cases keySet with
  | none =>
    show (if nblk < 1 ∨ 32768 < nblk then (some DecError.inputRangeError, blocks)
      else (some DecError.configurationError, blocks)) = _
    rw [if_pos h]
  | some k4 =>
    show (if nblk < 1 ∨ 32768 < nblk then (some DecError.inputRangeError, blocks)
      else if k4.length ≠ 128 then (some DecError.inputRangeError, blocks)
      else if rnd.seeded = false then (some DecError.configurationError, blocks)
      else (none, decryptCore k4 iv blocks nblk rnd)) = _
    rw [if_pos h]

theorem decrypt_no_key (salt iv : List Nat) (blocks : List (List Nat)) (nblk : Nat)
    (rnd : Randomness) (h1 : 1 ≤ nblk) (h2 : nblk ≤ 32768) :
    decrypt none salt iv blocks nblk rnd = (some DecError.configurationError, blocks) := by
  show (if nblk < 1 ∨ 32768 < nblk then (some DecError.inputRangeError, blocks)
    else (some DecError.configurationError, blocks)) = _
  rw [if_neg (by omega)]

theorem decrypt_unseeded (k4 salt iv : List Nat) (blocks : List (List Nat)) (nblk : Nat)
    (rnd : Randomness) (h1 : 1 ≤ nblk) (h2 : nblk ≤ 32768) (hlen : k4.length = 128)
    (hs : rnd.seeded = false) :
    decrypt (some k4) salt iv blocks nblk rnd = (some DecError.configurationError, blocks) := by
  show (if nblk < 1 ∨ 32768 < nblk then (some DecError.inputRangeError, blocks)
    else if k4.length ≠ 128 then (some DecError.inputRangeError, blocks)
    else if rnd.seeded = false then (some DecError.configurationError, blocks)
    else (none, decryptCore k4 iv blocks nblk rnd)) = _
  rw [if_neg (by omega), if_neg (by omega), hs, if_pos rfl]

theorem decrypt_bad_keylen (k4 salt iv : List Nat) (blocks : List (List Nat)) (nblk : Nat)
    (rnd : Randomness) (h1 : 1 ≤ nblk) (h2 : nblk ≤ 32768) (hlen : k4.length ≠ 128) :
    decrypt (some k4) salt iv blocks nblk rnd = (some DecError.inputRangeError, blocks) := by
  show (if nblk < 1 ∨ 32768 < nblk then (some DecError.inputRangeError, blocks)
    else if k4.length ≠ 128 then (some DecError.inputRangeError, blocks)
    else if rnd.seeded = false then (some DecError.configurationError, blocks)
    else (none, decryptCore k4 iv blocks nblk rnd)) = _
  rw [if_neg (by omega), if_pos hlen]

/-! ## Claims -/

/-- C1: for every 256-bit key K, initial counter IV0, plaintext P and nblk in
[1,32768], decrypting the AES-256-CTR encryption of P under (K, IV0) -
produced by the independent reference implementation - through `decrypt`
called on the 4-way share of K overwrites the block array in place with
exactly P; each block's keystream is AES-256-encrypt(IV0 + block index)
XORed with the ciphertext block. -/
theorem c1_ctr_roundtrip (K r1 r2 r3 salt iv : List Nat) (P : List (List Nat))
    (nblk : Nat) (rnd : Randomness) (hwf : rnd.WF) (hs : rnd.seeded = true)
    (hK : K.length = 32) (h1 : 1 ≤ nblk) (h2 : nblk ≤ 32768) (hPlen : P.length = nblk)
    (hPblk : ∀ b ∈ P, b.length = 16) :
    decrypt (some (share4 K r1 r2 r3)) salt iv (refCtrEncrypt K iv P) nblk rnd =
      (none, P) := by
  rw [refCtrEncrypt_eq]
  exact decrypt_roundtrip K r1 r2 r3 salt iv P nblk rnd hwf hs hK h1 h2 hPlen hPblk

theorem c1_ctr_roundtrip_witness :
    decrypt (some (share4 (List.replicate 32 0) (List.replicate 32 1) (List.replicate 32 2)
        (List.replicate 32 3))) (List.replicate 16 0) (List.replicate 16 0)
      (refCtrEncrypt (List.replicate 32 0) (List.replicate 16 0) [List.replicate 16 7]) 1
      plainRnd = (none, [List.replicate 16 7]) :=
  c1_ctr_roundtrip (List.replicate 32 0) (List.replicate 32 1) (List.replicate 32 2)
    (List.replicate 32 3) (List.replicate 16 0) (List.replicate 16 0)
    [List.replicate 16 7] 1 plainRnd plainRnd_wf rfl (by simp) (by norm_num) (by norm_num)
    (by simp) (by simp)

/-- C2: with the default key material (a 4-way share of the all-zero 256-bit
key), zero IV, a single zero ciphertext block and nblk = 1, decrypt produces
the AES-256-ECB encryption of a zero block under the zero key - the fixed
NIST value dc95c078a2408989ad48a21492842087 - for every choice of internal
random masks and permutations. -/
theorem c2_golden_vector (rnd : Randomness) (hwf : rnd.WF) (hs : rnd.seeded = true) :
    reconstruct4 defaultKey4 = List.replicate 32 0 ∧
    decrypt (some defaultKey4) (List.replicate 16 0) (List.replicate 16 0)
        [List.replicate 16 0] 1 rnd =
      (none, [aes256Encrypt (List.replicate 32 0) (List.replicate 16 0)]) ∧
    aes256Encrypt (List.replicate 32 0) (List.replicate 16 0) =
      [0xdc, 0x95, 0xc0, 0x78, 0xa2, 0x40, 0x89, 0x89,
       0xad, 0x48, 0xa2, 0x14, 0x92, 0x84, 0x20, 0x87] := by
  refine ⟨by decide, ?_, by decide⟩
  rw [decrypt_eq_ctr defaultKey4 (List.replicate 16 0) (List.replicate 16 0)
        [List.replicate 16 0] 1 rnd hwf (by norm_num) (by norm_num) (by decide) hs (by simp)]
  refine congrArg (Prod.mk none) ?_
  decide

theorem c2_golden_vector_witness :
    reconstruct4 defaultKey4 = List.replicate 32 0 ∧
    decrypt (some defaultKey4) (List.replicate 16 0) (List.replicate 16 0)
        [List.replicate 16 0] 1 plainRnd =
      (none, [aes256Encrypt (List.replicate 32 0) (List.replicate 16 0)]) ∧
    aes256Encrypt (List.replicate 32 0) (List.replicate 16 0) =
      [0xdc, 0x95, 0xc0, 0x78, 0xa2, 0x40, 0x89, 0x89,
       0xad, 0x48, 0xa2, 0x14, 0x92, 0x84, 0x20, 0x87] :=
  c2_golden_vector plainRnd plainRnd_wf rfl

/-- C3: the plaintext written by decrypt is a deterministic function of the
key material, IV and ciphertext alone - two runs on the same inputs but
with different (well-formed) RandomSource draws, hence different masks,
share splits and block-order permutations, return identical results. -/
theorem c3_deterministic (k4 salt iv : List Nat) (blocks : List (List Nat)) (nblk : Nat)
    (rnd1 rnd2 : Randomness) (hwf1 : rnd1.WF) (hwf2 : rnd2.WF)
    (hs1 : rnd1.seeded = true) (hs2 : rnd2.seeded = true)
    (h1 : 1 ≤ nblk) (h2 : nblk ≤ 32768) (hblen : blocks.length = nblk) :
    decrypt (some k4) salt iv blocks nblk rnd1 = decrypt (some k4) salt iv blocks nblk rnd2 := by
  by_cases hlen : k4.length = 128
  · rw [decrypt_eq_ctr k4 salt iv blocks nblk rnd1 hwf1 h1 h2 hlen hs1 hblen,
        decrypt_eq_ctr k4 salt iv blocks nblk rnd2 hwf2 h1 h2 hlen hs2 hblen]
  · rw [decrypt_bad_keylen k4 salt iv blocks nblk rnd1 h1 h2 hlen,
        decrypt_bad_keylen k4 salt iv blocks nblk rnd2 h1 h2 hlen]

theorem c3_deterministic_witness :
    decrypt (some defaultKey4) (List.replicate 16 0) (List.replicate 16 0)
        [List.replicate 16 5] 1 plainRnd =
      decrypt (some defaultKey4) (List.replicate 16 0) (List.replicate 16 0)
        [List.replicate 16 5] 1
        ⟨true, fun _ => List.replicate 16 9, 4, fun _ => List.replicate 16 8,
         List.replicate 4 7, fun _ => 6, fun _ => List.replicate 16 5,
         fun _ i => 15 - i % 16, fun _ i => 15 - i % 16, [11, 12], fun a b c => a + b + c⟩ :=
  c3_deterministic defaultKey4 (List.replicate 16 0) (List.replicate 16 0)
    [List.replicate 16 5] 1 plainRnd
    ⟨true, fun _ => List.replicate 16 9, 4, fun _ => List.replicate 16 8,
     List.replicate 4 7, fun _ => 6, fun _ => List.replicate 16 5,
     fun _ i => 15 - i % 16, fun _ i => 15 - i % 16, [11, 12], fun a b c => a + b + c⟩
    plainRnd_wf
    (by
      intro r i hi
      dsimp only
      omega)
    rfl rfl (by norm_num) (by norm_num) (by simp)

/-- C4: for every nblk in [1,32768] and every draw of swap-or-not round keys
(and hash), the BlockScheduler permutation is a total bijection on
[0, nblk): the multiset of its values on 0..nblk-1 is exactly
{0,...,nblk-1}.  Candidates outside [0, nblk) are discarded by the
cycle-walking guard inside `sonStep`. -/
theorem c4_perm_bijective (hash : Nat → Nat → Nat → Nat) (keys : List Nat) (nblk : Nat)
    (h1 : 1 ≤ nblk) (h2 : nblk ≤ 32768) :
    Multiset.map (blockPerm hash keys nblk) (Multiset.range nblk) = Multiset.range nblk := by
  show Multiset.map (blockPerm hash keys nblk) ((List.range nblk : List Nat) : Multiset Nat) =
    ((List.range nblk : List Nat) : Multiset Nat)
  rw [Multiset.map_coe]
  exact Multiset.coe_eq_coe.mpr (blockPerm_list_perm hash keys (le_trans h2 (by norm_num)))

theorem c4_perm_bijective_witness :
    Multiset.map (blockPerm (fun a b c => a * 31 + b * 17 + c) [5, 9, 2] 7)
        (Multiset.range 7) = Multiset.range 7 :=
  c4_perm_bijective (fun a b c => a * 31 + b * 17 + c) [5, 9, 2] 7 (by norm_num) (by norm_num)

/-- C5: decryption visits blocks in physical order perm(0), ..., perm(nblk-1)
(the write loop runs over `List.range nblk` and writes the plaintext of
logical block perm(p) into logical slot perm(p) at step p), and afterwards
every slot i holds the plaintext of logical block i, with keystream computed
from counter IV0 + i, regardless of the visitation order. -/
theorem c5_slot_correct (k4 salt iv : List Nat) (blocks : List (List Nat)) (nblk : Nat)
    (rnd : Randomness) (hwf : rnd.WF) (hs : rnd.seeded = true) (hlen : k4.length = 128)
    (h1 : 1 ≤ nblk) (h2 : nblk ≤ 32768) (hblen : blocks.length = nblk) :
    decryptCore k4 iv blocks nblk rnd =
      writeLoop (blockPerm rnd.hash rnd.permKeys nblk)
        (fun j old => xor16 (maskedKeystream rnd (keyExpander rnd k4) j (ctrBlock iv j)) old)
        (List.range nblk) blocks ∧
    ∀ i < nblk, (decrypt (some k4) salt iv blocks nblk rnd).2.getD i [] =
      xor16 (aes256Encrypt (reconstruct4 k4) (ctrBlock iv i)) (blocks.getD i []) := by
  refine ⟨rfl, ?_⟩
  intro i hi
  rw [decrypt_eq_ctr k4 salt iv blocks nblk rnd hwf h1 h2 hlen hs hblen]
  show (ctrXor (reconstruct4 k4) iv blocks).getD i [] = _
  unfold ctrXor
  rw [getD_rangeMap _ _ _ _ (show i < blocks.length by omega)]

theorem c5_slot_correct_witness :
    decryptCore defaultKey4 (List.replicate 16 0) [List.replicate 16 3] 1 plainRnd =
      writeLoop (blockPerm plainRnd.hash plainRnd.permKeys 1)
        (fun j old => xor16 (maskedKeystream plainRnd (keyExpander plainRnd defaultKey4) j
          (ctrBlock (List.replicate 16 0) j)) old)
        (List.range 1) [List.replicate 16 3] ∧
    ∀ i < 1, (decrypt (some defaultKey4) (List.replicate 16 0) (List.replicate 16 0)
        [List.replicate 16 3] 1 plainRnd).2.getD i [] =
      xor16 (aes256Encrypt (reconstruct4 defaultKey4) (ctrBlock (List.replicate 16 0) i))
        ([List.replicate 16 3].getD i []) :=
  c5_slot_correct defaultKey4 (List.replicate 16 0) (List.replicate 16 0)
    [List.replicate 16 3] 1 plainRnd plainRnd_wf rfl (by decide) (by norm_num)
    (by norm_num) (by simp)

/-- C6: any nblk outside [1,32768] (in particular 0 and 32769) is rejected as
InputRangeError before key material is touched and leaves the block array
unchanged, while nblk = 1 and nblk = 32768 both round-trip correctly. -/
theorem c6_boundary :
    (∀ (keySet : Option (List Nat)) (salt iv : List Nat) (blocks : List (List Nat))
      (nblk : Nat) (rnd : Randomness), (nblk < 1 ∨ 32768 < nblk) →
        decrypt keySet salt iv blocks nblk rnd = (some DecError.inputRangeError, blocks)) ∧
    (∀ (K r1 r2 r3 salt iv : List Nat) (P : List (List Nat)) (rnd : Randomness),
      rnd.WF → rnd.seeded = true → K.length = 32 → P.length = 1 →
      (∀ b ∈ P, b.length = 16) →
        decrypt (some (share4 K r1 r2 r3)) salt iv (ctrXor K iv P) 1 rnd = (none, P)) ∧
    (∀ (K r1 r2 r3 salt iv : List Nat) (P : List (List Nat)) (rnd : Randomness),
      rnd.WF → rnd.seeded = true → K.length = 32 → P.length = 32768 →
      (∀ b ∈ P, b.length = 16) →
        decrypt (some (share4 K r1 r2 r3)) salt iv (ctrXor K iv P) 32768 rnd = (none, P)) := by
  refine ⟨?_, ?_, ?_⟩
  · intro keySet salt iv blocks nblk rnd h
    exact decrypt_range_error keySet salt iv blocks nblk rnd h
  · intro K r1 r2 r3 salt iv P rnd hwf hs hK hPlen hPblk
    exact decrypt_roundtrip K r1 r2 r3 salt iv P 1 rnd hwf hs hK (by norm_num) (by norm_num)
      hPlen hPblk
  · intro K r1 r2 r3 salt iv P rnd hwf hs hK hPlen hPblk
    exact decrypt_roundtrip K r1 r2 r3 salt iv P 32768 rnd hwf hs hK (by norm_num)
      (by norm_num) hPlen hPblk

theorem c6_boundary_witness :
    decrypt (some defaultKey4) [] [] [List.replicate 16 0] 0 plainRnd =
      (some DecError.inputRangeError, [List.replicate 16 0]) ∧
    decrypt (some defaultKey4) [] [] [List.replicate 16 0] 32769 plainRnd =
      (some DecError.inputRangeError, [List.replicate 16 0]) ∧
    decrypt (some (share4 (List.replicate 32 0) [] [] [])) [] (List.replicate 16 0)
      (ctrXor (List.replicate 32 0) (List.replicate 16 0) [List.replicate 16 9]) 1 plainRnd =
      (none, [List.replicate 16 9]) ∧
    decrypt (some (share4 (List.replicate 32 0) [] [] [])) [] (List.replicate 16 0)
      (ctrXor (List.replicate 32 0) (List.replicate 16 0)
        (List.replicate 32768 (List.replicate 16 9))) 32768 plainRnd =
      (none, List.replicate 32768 (List.replicate 16 9)) :=
  ⟨c6_boundary.1 (some defaultKey4) [] [] [List.replicate 16 0] 0 plainRnd (by norm_num),
   c6_boundary.1 (some defaultKey4) [] [] [List.replicate 16 0] 32769 plainRnd (by norm_num),
   c6_boundary.2.1 (List.replicate 32 0) [] [] [] [] (List.replicate 16 0)
     [List.replicate 16 9] plainRnd plainRnd_wf rfl (by simp) (by simp) (by simp),
   c6_boundary.2.2 (List.replicate 32 0) [] [] [] [] (List.replicate 16 0)
     (List.replicate 32768 (List.replicate 16 9)) plainRnd plainRnd_wf rfl (by simp)
     (List.length_replicate _ _) (by
       intro b hb
       rw [List.eq_of_mem_replicate hb]
       exact List.length_replicate _ _)⟩

/-- C7: invoking decrypt when no key has ever been set, or when RandomSource
is not seeded, is a ConfigurationError and the system fails closed: the
block array is returned unchanged, no plaintext is produced. -/
theorem c7_fail_closed :
    (∀ (salt iv : List Nat) (blocks : List (List Nat)) (nblk : Nat) (rnd : Randomness),
      1 ≤ nblk → nblk ≤ 32768 →
        decrypt none salt iv blocks nblk rnd = (some DecError.configurationError, blocks)) ∧
    (∀ (k4 salt iv : List Nat) (blocks : List (List Nat)) (nblk : Nat) (rnd : Randomness),
      1 ≤ nblk → nblk ≤ 32768 → k4.length = 128 → rnd.seeded = false →
        decrypt (some k4) salt iv blocks nblk rnd =
          (some DecError.configurationError, blocks)) := by
  refine ⟨?_, ?_⟩
  · intro salt iv blocks nblk rnd h1 h2
    exact decrypt_no_key salt iv blocks nblk rnd h1 h2
  · intro k4 salt iv blocks nblk rnd h1 h2 hlen hs
    exact decrypt_unseeded k4 salt iv blocks nblk rnd h1 h2 hlen hs

theorem c7_fail_closed_witness :
    decrypt none [] [] [List.replicate 16 0] 1 plainRnd =
      (some DecError.configurationError, [List.replicate 16 0]) ∧
    decrypt (some defaultKey4) [] [] [List.replicate 16 0] 1
        ⟨false, plainRnd.blockMask, plainRnd.shareC, plainRnd.rkMask, plainRnd.rkC,
         plainRnd.sboxIn, plainRnd.sboxOut, plainRnd.permB, plainRnd.permBInv,
         plainRnd.permKeys, plainRnd.hash⟩ =
      (some DecError.configurationError, [List.replicate 16 0]) :=
  ⟨c7_fail_closed.1 [] [] [List.replicate 16 0] 1 plainRnd (by norm_num) (by norm_num),
   c7_fail_closed.2 defaultKey4 [] [] [List.replicate 16 0] 1 _ (by norm_num) (by norm_num)
     (by decide) rfl⟩

/-- C8 counterexample: the README's keytool.py encoding of the all-zero
256-bit key is valid 4-way key material whose true key is zero, yet the XOR
of its four contiguous 32-byte quarters is not the zero key - the 128 bytes
are interleaved per 32-bit word (key word j is the XOR of the four
consecutive share words at bytes 16j..16j+15), not concatenated as four
32-byte components. -/
theorem c8_concat_counterexample :
    reconstruct4Concat keytoolZeroEnc ≠ List.replicate 32 0 ∧
    reconstruct4 keytoolZeroEnc = List.replicate 32 0 ∧
    reconstruct4Concat defaultKey4 ≠ List.replicate 32 0 ∧
    reconstruct4 defaultKey4 = List.replicate 32 0 := by
  refine ⟨by decide, by decide, by decide, by decide⟩

/-- C8 (amended): the key-set operation accepts exactly 128 bytes of
4-way-shared key material, interleaved per 32-bit word - for each word of
the true key, four consecutive share words whose XOR is that key word (the
offline tool draws three random 32-byte shares and sets the fourth to their
XOR with the true key) - and decrypt on such material behaves as decrypt
under the true key it encodes; key material that is not exactly 128 bytes
is rejected as InputRangeError. -/
theorem c8_keyset :
    (∀ K r1 r2 r3 : List Nat, (share4 K r1 r2 r3).length = 128) ∧
    (∀ K r1 r2 r3 : List Nat, K.length = 32 → reconstruct4 (share4 K r1 r2 r3) = K) ∧
    (∀ (k4 salt iv : List Nat) (blocks : List (List Nat)) (nblk : Nat) (rnd : Randomness),
      1 ≤ nblk → nblk ≤ 32768 → k4.length ≠ 128 →
        decrypt (some k4) salt iv blocks nblk rnd = (some DecError.inputRangeError, blocks)) ∧
    (∀ (K r1 r2 r3 salt iv : List Nat) (blocks : List (List Nat)) (nblk : Nat)
      (rnd : Randomness), rnd.WF → rnd.seeded = true → K.length = 32 →
      1 ≤ nblk → nblk ≤ 32768 → blocks.length = nblk →
        decrypt (some (share4 K r1 r2 r3)) salt iv blocks nblk rnd =
          (none, ctrXor K iv blocks)) := by
  refine ⟨share4_length, ?_, ?_, ?_⟩
  · intro K r1 r2 r3 hK
    rw [reconstruct4_share4, eq_rangeMap_byteAt hK]
  · intro k4 salt iv blocks nblk rnd h1 h2 hlen
    exact decrypt_bad_keylen k4 salt iv blocks nblk rnd h1 h2 hlen
  · intro K r1 r2 r3 salt iv blocks nblk rnd hwf hs hK h1 h2 hblen
    rw [decrypt_eq_ctr _ salt iv blocks nblk rnd hwf h1 h2 (share4_length K r1 r2 r3) hs hblen,
        reconstruct4_share4, eq_rangeMap_byteAt hK]

theorem c8_keyset_witness :
    (share4 (List.replicate 32 0) [] [] []).length = 128 ∧
    reconstruct4 (share4 (List.replicate 32 0) [] [] []) = List.replicate 32 0 ∧
    decrypt (some [1, 2, 3]) [] [] [List.replicate 16 0] 1 plainRnd =
      (some DecError.inputRangeError, [List.replicate 16 0]) ∧
    decrypt (some (share4 (List.replicate 32 0) [] [] [])) [] (List.replicate 16 0)
        [List.replicate 16 4] 1 plainRnd =
      (none, ctrXor (List.replicate 32 0) (List.replicate 16 0) [List.replicate 16 4]) :=
  ⟨c8_keyset.1 (List.replicate 32 0) [] [] [],
   c8_keyset.2.1 (List.replicate 32 0) [] [] [] (by simp),
   c8_keyset.2.2.1 [1, 2, 3] [] [] [List.replicate 16 0] 1 plainRnd (by norm_num)
     (by norm_num) (by decide),
   c8_keyset.2.2.2 (List.replicate 32 0) [] [] [] [] (List.replicate 16 0)
     [List.replicate 16 4] 1 plainRnd plainRnd_wf rfl (by simp) (by norm_num) (by norm_num)
     (by simp)⟩

/-- C9: the MaskedState invariant shareA xor shareB xor ShareC == true state
is preserved by every operation of the round pipeline - ADDROUNDKEY, the
byte permutation, MaskedSBox, SHIFTROWS, MIXCOLUMNS - in the sense that
recombining after the masked operation yields the plain operation applied to
the recombined state; and the single recombination after the final
ADDROUNDKEY (inside `maskedKeystream`, the one place `unmask` is ever
invoked per block) yields exactly the true AES-256 state of the block. -/
theorem c9_masking_invariant :
    (∀ (k : MaskedRoundKey) (s : MaskedState),
      unmask (maskedAddRoundKey k s) = addRK (trueRoundKey k) (unmask s)) ∧
    (∀ (sigma : Nat → Nat) (s : MaskedState), (∀ i < 16, sigma i < 16) →
      unmask (maskedPermuteBytes sigma s) = applyIdx sigma (unmask s)) ∧
    (∀ (rin : Nat) (rout : List Nat) (s : MaskedState),
      unmask (maskedSubBytes rin rout s) = subBytes (unmask s)) ∧
    (∀ s : MaskedState, unmask (maskedShiftRows s) = shiftRows (unmask s)) ∧
    (∀ s : MaskedState, unmask (maskedMixColumns s) = mixColumns (unmask s)) ∧
    (∀ (rnd : Randomness) (key : List Nat) (b : Nat) (ctr : List Nat),
      rnd.WF → ctr.length = 16 →
        maskedKeystream rnd (maskedSchedule rnd key) b ctr = aes256Encrypt key ctr) := by
  refine ⟨unmask_maskedAddRoundKey, ?_, unmask_maskedSubBytes, unmask_maskedShiftRows,
    unmask_maskedMixColumns, ?_⟩
  · intro sigma s hs
    exact unmask_maskedPermuteBytes hs s
  · intro rnd key b ctr hwf hlen
    exact maskedKeystream_eq hwf key b hlen

theorem c9_masking_invariant_witness :
    unmask (maskedAddRoundKey ⟨List.replicate 16 1, List.replicate 16 2, List.replicate 4 3⟩
        ⟨List.replicate 16 4, List.replicate 16 5, 6⟩) =
      addRK (trueRoundKey ⟨List.replicate 16 1, List.replicate 16 2, List.replicate 4 3⟩)
        (unmask ⟨List.replicate 16 4, List.replicate 16 5, 6⟩) ∧
    unmask (maskedPermuteBytes (fun i => 15 - i % 16)
        ⟨List.replicate 16 4, List.replicate 16 5, 6⟩) =
      applyIdx (fun i => 15 - i % 16) (unmask ⟨List.replicate 16 4, List.replicate 16 5, 6⟩) ∧
    unmask (maskedSubBytes 7 (List.replicate 16 8)
        ⟨List.replicate 16 4, List.replicate 16 5, 6⟩) =
      subBytes (unmask ⟨List.replicate 16 4, List.replicate 16 5, 6⟩) ∧
    unmask (maskedShiftRows ⟨List.replicate 16 4, List.replicate 16 5, 6⟩) =
      shiftRows (unmask ⟨List.replicate 16 4, List.replicate 16 5, 6⟩) ∧
    unmask (maskedMixColumns ⟨List.replicate 16 4, List.replicate 16 5, 6⟩) =
      mixColumns (unmask ⟨List.replicate 16 4, List.replicate 16 5, 6⟩) ∧
    maskedKeystream plainRnd (maskedSchedule plainRnd (List.replicate 32 0)) 0
        (List.replicate 16 0) =
      aes256Encrypt (List.replicate 32 0) (List.replicate 16 0) :=
  ⟨c9_masking_invariant.1 ⟨List.replicate 16 1, List.replicate 16 2, List.replicate 4 3⟩
     ⟨List.replicate 16 4, List.replicate 16 5, 6⟩,
   c9_masking_invariant.2.1 (fun i => 15 - i % 16)
     ⟨List.replicate 16 4, List.replicate 16 5, 6⟩
     (by
       intro i hi
       show 15 - i % 16 < 16
       omega),
   c9_masking_invariant.2.2.1 7 (List.replicate 16 8)
     ⟨List.replicate 16 4, List.replicate 16 5, 6⟩,
   c9_masking_invariant.2.2.2.1 ⟨List.replicate 16 4, List.replicate 16 5, 6⟩,
   c9_masking_invariant.2.2.2.2.1 ⟨List.replicate 16 4, List.replicate 16 5, 6⟩,
   c9_masking_invariant.2.2.2.2.2 plainRnd (List.replicate 32 0) 0 (List.replicate 16 0)
     plainRnd_wf (List.length_replicate _ _)⟩

/-- C10: in the emulation build of rcp.h every rcp_* checking macro
(rcp_bvalid, rcp_btrue, rcp_canary_get, rcp_canary_check, rcp_count_set,
rcp_count_check and the rest, with their _nodelay variants) expands to zero
instructions and rcp_panic expands to the unconditional self-branch `b .`;
consequently the emulated instruction stream of any program equals that of
the same program with all RCP fault-injection checks removed, and execution
that reaches the rcp_panic loop never leaves it. -/
theorem c10_rcp_emulation :
    (∀ c : RcpCheck, expandEmu (AsmItem.check c) = []) ∧
    expandEmu AsmItem.panicCall = [Instr.brSelf] ∧
    (∀ p : List AsmItem, expandProg expandEmu p = expandProg expandEmu (stripChecks p)) ∧
    (∀ (prog : List Instr) (pc : Nat), prog.getD pc (Instr.op 0) = Instr.brSelf →
      ∀ n : Nat, runPc prog n pc = pc) := by
  refine ⟨?_, rfl, expandProg_stripChecks, ?_⟩
  · intro c
    cases c <;> rfl
  · intro prog pc h n
    exact runPc_brSelf h n

theorem c10_rcp_emulation_witness :
    expandEmu (AsmItem.check RcpCheck.canaryCheck) = [] ∧
    expandEmu AsmItem.panicCall = [Instr.brSelf] ∧
    expandProg expandEmu [AsmItem.instr (Instr.op 3), AsmItem.check RcpCheck.bvalid,
        AsmItem.panicCall] =
      expandProg expandEmu (stripChecks [AsmItem.instr (Instr.op 3),
        AsmItem.check RcpCheck.bvalid, AsmItem.panicCall]) ∧
    runPc [Instr.op 3, Instr.brSelf] 5 1 = 1 :=
  ⟨c10_rcp_emulation.1 RcpCheck.canaryCheck,
   c10_rcp_emulation.2.1,
   c10_rcp_emulation.2.2.1 [AsmItem.instr (Instr.op 3), AsmItem.check RcpCheck.bvalid,
     AsmItem.panicCall],
   c10_rcp_emulation.2.2.2 [Instr.op 3, Instr.brSelf] 1 rfl 5⟩
